import Mathlib

/-!
Verification development for the SVG-table construction pipeline implemented by
the two near-identical scripts `addSVGtable.py` and `add_svg_table.py`.

Documents and file names are modelled as `List Char`.  The four compiled
regular expressions of the scripts are modelled by hand-rolled scanners with
the exact backtracking semantics of the patterns on character lists:

* `svg_element_regex  = <svg.+?>.+?</svg>`   (DOTALL)  — `svg_element_found`
* `id_value_regex     = <svg[^>]+?(id=".*?").+?>`      — `find_id_value`
* `view_box_regex     = <svg.+?(view_box=["|'][\d, ]+["|']).+?>` — `find_view_box`
* `white_space_regex  = >\s+<`                          — `compact_white_space`

`re.search` only has to report the leftmost match, and for these patterns the
lazy/greedy quantifiers resolve to: leftmost start, then earliest position of
the literal anchors, then — for the capture groups — the first closing quote
(lazy `.*?`) respectively the maximal digit/comma/space run (greedy `[\d, ]+`),
with the trailing `.+?>` succeeding exactly when some `>` occurs at least two
characters after the capture.

Both scripts then call `re.sub(match.group(1), repl, data)`, compiling the
captured text as a regular expression.  This is modelled without collapse:

* A capture free of regex metacharacters compiles to a pattern matching
  exactly the captured string, so the substitution is literal replacement of
  every non-overlapping occurrence (`replaceAll`).
* The `view_box` capture can contain exactly one metacharacter, a `|` admitted
  as a quote by the class `["|']` (its other characters — `view_box=`, digits,
  commas, spaces, `"`, `'` — are all literal).  The compiled pattern is then
  the ordered alternation of the pipe-separated literal chunks, possibly with
  a trailing empty branch; `replaceAlts` implements `re.sub` for such
  patterns exactly (Python ≥ 3.7 empty-match replacement rules).
* The `id` capture `id="…"` can contain arbitrary metacharacters.  When the
  capture, which holds no backslash and no `[`, has unequal numbers of `(`
  and `)`, compilation is guaranteed to raise `re.error` (missing or
  unbalanced parenthesis); the exception is uncaught, so the process dies
  with nothing written — `PyResult.error`.  Remaining metacharacter captures
  compile to patterns with genuine regex behaviour (e.g. `id="a*b"`
  silently fails to match its own text) which this development does not
  model; they are marked `PyResult.unmodelled` and no theorem below asserts
  anything about the program on that domain.

The external `fontTools` container is the spec's `FontContainer` capability;
it is modelled by a glyph-name lookup `List Char → Option Nat`
(`font.getGlyphID` raising `KeyError` becomes `none`) and by the `RunOutcome`
of a run: `written recs` means the assembled table is handed to the container
writer and the font is saved; `noArtwork`, `noSvgFiles`, and `error` all leave
the font untouched (clean fatal message, clean fatal message, and uncaught
`re.error` respectively).
-/

namespace SVGTable

/-- Tests whether `pat` is a prefix of the character list `s`. -/
def leadsWith : List Char → List Char → Bool
  | [], _ => true
  | _ :: _, [] => false
  | p :: ps, c :: rest => p == c && leadsWith ps rest

/-- Tests whether `pat` occurs in `s` starting at index `i`. -/
def substr_at (s pat : List Char) (i : Nat) : Bool :=
  leadsWith pat (s.drop i)

/-- Tests whether `pat` occurs somewhere in `s`. -/
def containsSub (pat s : List Char) : Bool :=
  (List.range (s.length + 1)).any (fun i => substr_at s pat i)

/-- Fuel-driven worker for `replaceAll`.  Scans left to right; at each
position that starts an occurrence of `pat` it emits `repl` and resumes after
the occurrence, exactly like `re.sub` with a metacharacter-free pattern. -/
def replaceAllF : Nat → List Char → List Char → List Char → List Char
  | 0, _, _, s => s
  | _ + 1, _, _, [] => []
  | fuel + 1, pat, repl, c :: rest =>
    if pat ≠ [] ∧ leadsWith pat (c :: rest) then
      repl ++ replaceAllF fuel pat repl ((c :: rest).drop pat.length)
    else
      c :: replaceAllF fuel pat repl rest

/-- Replacement of every non-overlapping occurrence of `pat` by `repl`,
leftmost first: the behaviour of `re.sub`/`str.replace` with a literal
pattern.  The fuel `s.length + 1` is always sufficient because every step of
`replaceAllF` consumes at least one character of a nonempty input. -/
def replaceAll (pat repl s : List Char) : List Char :=
  replaceAllF (s.length + 1) pat repl s

/-- Result of handing a captured text to `re.sub` as a pattern: `ok` when the
substitution is performed within the modelled fragment, `error` when
compiling the capture is guaranteed to raise `re.error` (the exception is
uncaught, so the process dies), `unmodelled` when the capture compiles to a
pattern with regex behaviour outside the modelled fragment. -/
inductive PyResult (α : Type) where
  | ok (val : α)
  | error
  | unmodelled
  deriving DecidableEq

/-- The characters that are special in a Python regular expression:
`. ^ $ * + ? { } [ ] \ | ( )`.  A pattern containing none of them matches
exactly its own text. -/
def regexMeta (c : Char) : Bool :=
  c == '.' || c == '^' || c == '$' || c == '*' || c == '+' || c == '?' ||
  c == '{' || c == '}' || c == '[' || c == ']' || c == '|' ||
  c == '(' || c == ')' || c == Char.ofNat 92

/-- A pattern text that compiles to a regex matching exactly itself. -/
def regexLiteral (pat : List Char) : Bool :=
  pat.all (fun c => !regexMeta c)

/-- Sound detector of guaranteed `re.error`: in a pattern with no backslash
and no character class, every `(` opens a group and every `)` closes one, so
unequal counts leave a parenthesis unmatched and `re.compile` raises
(`missing )` / `unbalanced parenthesis`). -/
def unbalanced_parens (pat : List Char) : Bool :=
  !pat.contains (Char.ofNat 92) && !pat.contains '[' &&
    pat.count '(' != pat.count ')'

/-- Splits a text at its `|` characters.  For a pattern whose only
metacharacter is `|`, the compiled regex is the ordered alternation of these
chunks (an empty trailing chunk is the empty branch, which matches at every
position). -/
def splitPipe : List Char → List (List Char)
  | [] => [[]]
  | c :: rest =>
    if c = '|' then [] :: splitPipe rest
    else
      match splitPipe rest with
      | [] => [[c]]
      | chunk :: chunks => (c :: chunk) :: chunks

/-- Fuel-driven worker for `replaceAlts`. -/
def replaceAltsF : Nat → List (List Char) → List Char → List Char → List Char
  | 0, _, _, s => s
  | fuel + 1, alts, repl, s =>
    match alts.find? (fun a => leadsWith a s) with
    | none =>
      match s with
      | [] => []
      | c :: rest => c :: replaceAltsF fuel alts repl rest
    | some a =>
      if a.isEmpty then
        match s with
        | [] => repl
        | c :: rest => repl ++ c :: replaceAltsF fuel alts repl rest
      else repl ++ replaceAltsF fuel alts repl (s.drop a.length)

/-- Model of `re.sub(P, repl, s)` for a pattern `P` that is an ordered
alternation of literal chunks, given as the chunk list (a possibly occurring
empty chunk last).  At each position the first matching alternative wins; a
nonempty match is replaced and consumed; an empty match is replaced and the
following character copied (the Python ≥ 3.7 rule, under which empty matches
are replaced also directly after a nonempty match); a final empty match at
the end of the input is replaced as well. -/
def replaceAlts (alts : List (List Char)) (repl s : List Char) : List Char :=
  replaceAltsF (s.length + 1) alts repl s

/-- The decimal digit characters. -/
def digitChar (d : Nat) : Char := Char.ofNat (48 + d)

/-- Fuel-driven decimal printer (`"{}".format(gid)` for a nonnegative
integer). -/
def natDigitsF : Nat → Nat → List Char
  | 0, _ => []
  | fuel + 1, n =>
    if n < 10 then [digitChar n]
    else natDigitsF fuel (n / 10) ++ [digitChar (n % 10)]

/-- Decimal representation of a natural number. -/
def natRepr (n : Nat) : List Char := natDigitsF (n + 1) n

/-- The exact whitespace predicate of CPython on `str`: the characters for
which `str.isspace()` holds, which is also what `\s` matches in a text
pattern and what `str.strip()` removes — `\t\n\v\f\r` (9-13), the separators
28-31, space, NEL (133), NBSP (160), Ogham space (5760), the typographic
spaces 8192-8202, line/paragraph separator (8232/8233), narrow NBSP (8239),
medium mathematical space (8287) and ideographic space (12288). -/
def isPyWs (c : Char) : Bool :=
  (9 ≤ c.toNat && c.toNat ≤ 13) || (28 ≤ c.toNat && c.toNat ≤ 31) ||
  c.toNat == 32 || c.toNat == 133 || c.toNat == 160 || c.toNat == 5760 ||
  (8192 ≤ c.toNat && c.toNat ≤ 8202) || c.toNat == 8232 || c.toNat == 8233 ||
  c.toNat == 8239 || c.toNat == 8287 || c.toNat == 12288

/-- Fuel-driven worker for `compact_white_space`. -/
def compactWsF : Nat → List Char → List Char
  | 0, s => s
  | _ + 1, [] => []
  | fuel + 1, c :: rest =>
    if c = '>' then
      if rest.takeWhile isPyWs ≠ [] ∧
          (rest.drop (rest.takeWhile isPyWs).length).head? = some '<' then
        c :: compactWsF fuel (rest.drop (rest.takeWhile isPyWs).length)
      else
        c :: compactWsF fuel rest
    else
      c :: compactWsF fuel rest

/-- One left-to-right pass that deletes every whitespace run standing
directly between a `>` and a `<`.  The theorem `white_space_loop_eq_compact`
proves that the findall/replace loop of the scripts computes exactly this
pass. -/
def compact_white_space (s : List Char) : List Char :=
  compactWsF (s.length + 1) s

/-- Fuel-driven worker for `wsFindall`. -/
def wsFindallF : Nat → List Char → List (List Char)
  | 0, _ => []
  | _ + 1, [] => []
  | fuel + 1, c :: rest =>
    if c = '>' then
      if rest.takeWhile isPyWs ≠ [] ∧
          (rest.drop (rest.takeWhile isPyWs).length).head? = some '<' then
        ('>' :: rest.takeWhile isPyWs ++ ['<']) ::
          wsFindallF fuel (rest.drop ((rest.takeWhile isPyWs).length + 1))
      else wsFindallF fuel rest
    else wsFindallF fuel rest

/-- Model of `white_space_regex.findall(data)`: the non-overlapping leftmost
matches of `>\s+<` in order.  A match is a `>` followed by the maximal
(greedy `\s+`, nonempty) whitespace run before a `<`; the scan resumes after
the consumed `<`. -/
def wsFindall (s : List Char) : List (List Char) :=
  wsFindallF (s.length + 1) s

/-- Model of the whitespace-removal loop of `process_font_file` (lines 79-82
of `addSVGtable.py`, lines 64-66 of `add_svg_table.py`): each distinct string
matched by `white_space_regex` is replaced, wherever it occurs in the
document, by `><` (`str.replace` is literal).  Python iterates the `set` of
matches in an unspecified order; it is modelled by first-occurrence order
(`dedup`), and `white_space_loop_eq_compact` below shows the result is the
order-independent one-pass compaction. -/
def white_space_loop (s : List Char) : List Char :=
  ((wsFindall s).dedup).foldl (fun t w => replaceAll w ((r"><").toList) t) s

/-- Shape of every string matched by `white_space_regex`: a `>`, a nonempty
whitespace run, a `<`. -/
def IsWsMatch (w : List Char) : Prop :=
  ∃ run, run ≠ [] ∧ (∀ c ∈ run, isPyWs c = true) ∧ w = '>' :: (run ++ ['<'])

/-- Model of Python's `str.strip()`: remove leading and trailing ASCII
whitespace. -/
def pyStrip (s : List Char) : List Char :=
  ((s.dropWhile isPyWs).reverse.dropWhile isPyWs).reverse

/-- The literal `<svg`. -/
def svgOpenLit : List Char := (r"<svg").toList

/-- The literal `</svg>`. -/
def svgCloseLit : List Char := (r"</svg>").toList

/-- The literal `id="`. -/
def idEqLit : List Char := (r#"id=""#).toList

/-- The literal `view_box=`. -/
def viewBoxEqLit : List Char := (r"view_box=").toList

/-- The canonical replacement value installed by `fix_view_box`. -/
def fixedViewBoxLit : List Char := (r#"view_box="0 1000 1000 1000""#).toList

/-- Model of `svg_element_regex.search(data)` succeeding, i.e. of the pattern
`<svg.+?>.+?</svg>` (DOTALL) matching somewhere in `s`.  Because only
existence matters for validation, lazy matching is equivalent to: some `<svg`
at `i`, some `>` at `j ≥ i + 5` (the `.+?` forces at least one character
between them), and some `</svg>` at `k ≥ j + 2`. -/
def svg_element_found (s : List Char) : Bool :=
  (List.range s.length).any (fun i =>
    substr_at s svgOpenLit i &&
    (List.range s.length).any (fun j =>
      decide (i + 5 ≤ j) && (s[j]? == some '>') &&
      (List.range s.length).any (fun k =>
        decide (j + 2 ≤ k) && substr_at s svgCloseLit k)))

/-- Index of the last `>` in `s`, if any.  The trailing `.+?>` of the two
capturing patterns succeeds from position `q` exactly when the last `>` sits
at index `≥ q + 2`. -/
def last_gt_index (s : List Char) : Option Nat :=
  ((List.range s.length).filter (fun j => s[j]? == some '>')).getLast?

/-- First index `q ≥ start` carrying a double quote (the lazy `.*?"` of
`id_value_regex` closes the capture at the first quote). -/
def first_quote_from (s : List Char) (start : Nat) : Option Nat :=
  (List.range s.length).find? (fun q => decide (start ≤ q) && (s[q]? == some '"'))

/-- No `>` among positions `a ≤ t < b` of `s` (the `[^>]+?` region). -/
def no_gt_between (s : List Char) (a b : Nat) : Bool :=
  ((s.drop a).take (b - a)).all (fun c => c != '>')

/-- Position `p` starts `id="` and is reachable from some `<svg` at `i` through
a nonempty `>`-free gap (`<svg[^>]+?` with at least one character). -/
def id_candidate_at (s : List Char) (p : Nat) : Bool :=
  substr_at s idEqLit p &&
  (List.range s.length).any (fun i =>
    decide (i + 5 ≤ p) && substr_at s svgOpenLit i && no_gt_between s (i + 4) p)

/-- Full success condition of `id_value_regex` for the candidate at `p`, given
the last `>` index `lg`: the first closing quote must leave room for the
trailing `.+?>`. -/
def id_ok (s : List Char) (lg p : Nat) : Bool :=
  id_candidate_at s p &&
  match first_quote_from s (p + 4) with
  | some q => decide (q + 2 ≤ lg)
  | none => false

/-- Model of `id_value_regex.search(data)` returning `group(1)`: the pattern
`<svg[^>]+?(id=".*?").+?>` (DOTALL).  The match, when it exists, captures the
slice from the first successful `id="` position to its first closing quote. -/
def find_id_value (s : List Char) : Option (List Char) :=
  match last_gt_index s with
  | none => none
  | some lg =>
    match (List.range s.length).find? (id_ok s lg) with
    | none => none
    | some p =>
      match first_quote_from s (p + 4) with
      | none => none
      | some q => some ((s.drop p).take (q + 1 - p))

/-- The canonical identifier attribute `id="glyph<gid>"`. -/
def canonical_id (gid : Nat) : List Char :=
  idEqLit ++ (r"glyph").toList ++ natRepr gid ++ ['"']

/-- The tag text produced when no identifier is found: `<svg id="glyph<gid>"`,
substituted for every occurrence of `<svg`. -/
def injected_svg_tag (gid : Nat) : List Char :=
  svgOpenLit ++ ' ' :: canonical_id gid

/-- Model of `set_id_value(data, gid)` (identical in both scripts).  If
`id_value_regex` matches, the captured `id="…"` text is handed to `re.sub` as
a pattern: a metacharacter-free capture is replaced literally everywhere by
the canonical identifier; a capture whose plain parentheses are unbalanced
makes `re.compile` raise, and the uncaught `re.error` kills the process
(`PyResult.error`); any other metacharacter capture compiles to a pattern
with regex behaviour this development does not model (`PyResult.unmodelled`).
If `id_value_regex` does not match, every occurrence of the literal `<svg` is
replaced by `<svg id="glyph<gid>"`. -/
def set_id_value (data : List Char) (gid : Nat) : PyResult (List Char) :=
  match find_id_value data with
  | some cap =>
    if regexLiteral cap then .ok (replaceAll cap (canonical_id gid) data)
    else if unbalanced_parens cap then .error
    else .unmodelled
  | none => .ok (replaceAll svgOpenLit (injected_svg_tag gid) data)

/-- The character class `["|']` of `view_box_regex`: double quote, pipe, or
single quote (the pipe is literal inside a character class). -/
def vb_quote (c : Char) : Bool :=
  c == '"' || c == '|' || c == Char.ofNat 39

/-- The character class `[\d, ]` of `view_box_regex` (ASCII digits). -/
def digit_comma_space (c : Char) : Bool :=
  c.isDigit || c == ',' || c == ' '

/-- Length of the maximal `[\d, ]` run following the opening quote of a
`view_box=` candidate at `p` (the greedy `[\d, ]+`). -/
def vb_run_len (s : List Char) (p : Nat) : Nat :=
  ((s.drop (p + 10)).takeWhile digit_comma_space).length

/-- Full success condition of `view_box_regex` for the `view_box=` candidate
at `p`, given the first `<svg` at `svgIdx`. -/
def vb_ok (s : List Char) (svgIdx p : Nat) : Bool :=
  decide (svgIdx + 5 ≤ p) && substr_at s viewBoxEqLit p &&
  (match s[p + 9]? with | some c => vb_quote c | none => false) &&
  decide (1 ≤ vb_run_len s p) &&
  (match s[p + 10 + vb_run_len s p]? with | some c => vb_quote c | none => false) &&
  (match last_gt_index s with
   | some lg => decide (p + 12 + vb_run_len s p ≤ lg)
   | none => false)

/-- Model of `view_box_regex.search(data)` returning `group(1)`: the pattern
`<svg.+?(view_box=["|'][\d, ]+["|']).+?>` (DOTALL).  The capture runs from the
first successful `view_box=` position through the quoted digit/comma/space
run. -/
def find_view_box (s : List Char) : Option (List Char) :=
  match (List.range s.length).find? (fun i => substr_at s svgOpenLit i) with
  | none => none
  | some i =>
    match (List.range s.length).find? (vb_ok s i) with
    | none => none
    | some p => some ((s.drop p).take (11 + vb_run_len s p))

/-- Model of `fix_view_box(data)` (identical in both scripts): if
`view_box_regex` matches, the captured text is handed to `re.sub` as a
pattern.  A `view_box` capture consists of `view_box=`, digits, commas,
spaces and its two quote characters, each drawn from `["|']`; every one of
those characters is a regex literal except `|`, so the compiled pattern is
exactly the ordered alternation of the capture's pipe-separated chunks
(`splitPipe`; with no pipe this is the single literal chunk and the
substitution is plain literal replacement).  With no match the document is
returned unchanged. -/
def fix_view_box (data : List Char) : List Char :=
  match find_view_box data with
  | none => data
  | some cap => replaceAlts (splitPipe cap) fixedViewBoxLit data

/-- The per-item normalization performed inside the `process_font_file` loop:
identifier injection (which may kill the process with an uncaught `re.error`,
or leave the modelled fragment), then bounds repair, the whitespace-removal
loop, and `strip()`. -/
def svg_item_pipeline (content : List Char) (gid : Nat) : PyResult (List Char) :=
  match set_id_value content gid with
  | .ok d => .ok (pyStrip (white_space_loop (fix_view_box d)))
  | .error => .error
  | .unmodelled => .unmodelled

/-- An artwork candidate: full path and raw text content.  Both scripts use
only the final path component (for hiddenness and the glyph name) and the full
content, so a candidate is modelled by those two strings. -/
structure FileEnt where
  name : List Char
  content : List Char
  deriving DecidableEq

/-- Final component of a path (`os.path.split(p)[1]` / `Path(p).name`). -/
def base_name (p : List Char) : List Char :=
  (p.reverse.takeWhile (fun c => c != '/')).reverse

/-- Model of `os.path.splitext(n)[0]` (equally of `Path(n).stem` on the final
component): drop the suffix that starts at the last dot, unless every
character before that dot is itself a dot. -/
def strip_extension (n : List Char) : List Char :=
  let lead := n.takeWhile (fun c => c = '.')
  let rest := n.drop lead.length
  if rest.any (fun c => c = '.') then
    lead ++ (rest.reverse.drop ((rest.reverse.takeWhile (fun c => c != '.')).length + 1)).reverse
  else n

/-- Model of `get_glyph_name_from_file_name` (`addSVGtable.py` lines 49-52)
and of `svg_file_path.stem` (`add_svg_table.py` line 50): base name of the
path without its extension. -/
def get_glyph_name_from_file_name (p : List Char) : List Char :=
  strip_extension (base_name p)

/-- Hidden-file test of `validate_svg_files`: the file name starts with a
period (`filename[0] == "."` resp. `file_path.name.startswith(".")`). -/
def is_hidden (p : List Char) : Bool :=
  (base_name p).head? == some '.'

/-- Model of `validate_svg_files` (both scripts): drop hidden files, drop
files in which `svg_element_regex` finds no match, keep the rest in order. -/
def validate_svg_files (files : List FileEnt) : List FileEnt :=
  files.filter (fun f => !is_hidden f.name && svg_element_found f.content)

/-- One record of the SVG table: the entry `[docText, gid, gid]` appended to
`svg_docs_dict[gid]` by `process_font_file`. -/
structure SVGRecord where
  doc : List Char
  startGlyphID : Nat
  endGlyphID : Nat
  deriving DecidableEq

/-- Insertion into the glyph-id-keyed dictionary `svg_docs_dict`: overwrite
the value of an existing key in place, otherwise append the new key.  This is
the Python `svg_docs_dict[gid] = svg_items_list` assignment, whose
last-write-wins overwrite resolves duplicate glyph ids. -/
def dinsert : List (Nat × List Char) → Nat → List Char → List (Nat × List Char)
  | [], k, v => [(k, v)]
  | (k', v') :: rest, k, v =>
    if k' = k then (k', v) :: rest else (k', v') :: dinsert rest k v

/-- Dictionary lookup. -/
def dlookup : List (Nat × List Char) → Nat → Option (List Char)
  | [], _ => none
  | (k', v) :: rest, k => if k' = k then some v else dlookup rest k

/-- Total lookup with a default, modelling `svg_docs_dict[index]` for an index
drawn from the dictionary's own keys (so the default is never exposed). -/
def dlookupD (d : List (Nat × List Char)) (k : Nat) : List Char :=
  (dlookup d k).getD []

/-- Model of `svg_docs_list = [svg_docs_dict[i] for i in sorted(keys)]`
(`addSVGtable.py` line 94, `add_svg_table.py` line 77): the records keyed by
ascending glyph id, each carrying the single-glyph range `(gid, gid)`. -/
def svg_docs_list (d : List (Nat × List Char)) : List SVGRecord :=
  (List.insertionSort (· ≤ ·) (d.map Prod.fst)).map
    (fun gid => ⟨dlookupD d gid, gid, gid⟩)

/-- The diagnostic emitted on a glyph-name lookup miss (`addSVGtable.py`
lines 67-72, `add_svg_table.py` lines 55-57). -/
def err_missing_glyph (glyphName fontName : List Char) : List Char :=
  (r"ERROR: Could not find a glyph named ").toList ++ glyphName ++
    (r" in the font ").toList ++ fontName ++ ['.']

/-- The fatal message printed when no artwork survives resolution
(`addSVGtable.py` lines 88-91, `add_svg_table.py` lines 73-75). -/
def err_no_artwork : List Char :=
  (r"ERROR: Could not find any artwork files that can be added to the font.").toList

/-- Outcome of a run.  Only `written` stores anything in the font: the
assembled record list is handed to the container writer and the font is
saved.  `noArtwork` is the clean fatal "no artwork files" path of
`process_font_file`, `noSvgFiles` the clean fatal "No SVG files were found"
path of `run`, and `error` the death of the process by an uncaught
`re.error`; in all three the font file is left untouched.  `unmodelled` marks
runs that leave the modelled fragment (a metacharacter capture compiled as a
valid regex); no theorem below asserts anything about such runs. -/
inductive RunOutcome where
  | written (recs : List SVGRecord)
  | noArtwork
  | noSvgFiles
  | error
  | unmodelled
  deriving DecidableEq

/-- The loop of `process_font_file`, threading the emitted diagnostics and
the glyph-id-keyed dictionary: a glyph-name miss records a diagnostic and
skips the file; a hit normalizes the document and stores it under its glyph
id; a normalization `error`/`unmodelled` stops the loop there (the exception
propagates out of the whole program), keeping the diagnostics emitted so
far. -/
def ploop (fontName : List Char) (getGlyphID : List Char → Option Nat) :
    List FileEnt → List (List Char) → List (Nat × List Char) →
    List (List Char) × PyResult (List (Nat × List Char))
  | [], dgs, dict => (dgs, .ok dict)
  | f :: fs, dgs, dict =>
    match getGlyphID (get_glyph_name_from_file_name f.name) with
    | none =>
        ploop fontName getGlyphID fs
          (dgs ++ [err_missing_glyph (get_glyph_name_from_file_name f.name) fontName])
          dict
    | some gid =>
        match svg_item_pipeline f.content gid with
        | .ok doc => ploop fontName getGlyphID fs dgs (dinsert dict gid doc)
        | .error => (dgs, .error)
        | .unmodelled => (dgs, .unmodelled)

/-- Model of `process_font_file` (both scripts).  Output: the diagnostics in
emission order, and the outcome — `written recs` exactly when the table is
assembled and handed to the container writer (the font is saved),
`noArtwork` when the dictionary stayed empty (the run aborts with an ERROR
message and the font is untouched), `error` when an uncaught `re.error`
kills the process mid-loop. -/
def process_font_file (font_file_path : List Char)
    (getGlyphID : List Char → Option Nat) (files : List FileEnt) :
    List (List Char) × RunOutcome :=
  match ploop (base_name font_file_path) getGlyphID files [] [] with
  | (dgs, .ok dict) =>
    if dict.isEmpty then (dgs ++ [err_no_artwork], .noArtwork)
    else (dgs, .written (svg_docs_list dict))
  | (dgs, .error) => (dgs, .error)
  | (dgs, .unmodelled) => (dgs, .unmodelled)

/-- Candidate discovery plus run logic of `addSVGtable.py`'s `run` (lines
162-185): `os.walk` collects every file of the tree, the candidates are
validated, an empty survivor list aborts with "No SVG files were found",
otherwise `process_font_file` runs. -/
def runPipelineV1 (font_file_path : List Char)
    (getGlyphID : List Char → Option Nat) (files : List FileEnt) :
    RunOutcome :=
  let validated := validate_svg_files files
  if validated.isEmpty then .noSvgFiles
  else (process_font_file font_file_path getGlyphID validated).2

/-- The `*.svg` name filter of `add_svg_table.py`'s
`svg_folder_path.rglob("*.svg")` (line 138). -/
def endsWithSvg (n : List Char) : Bool :=
  decide (4 ≤ n.length) && (n.drop (n.length - 4) == (r".svg").toList)

/-- Discovery plus run logic of `add_svg_table.py`'s `run` (lines 135-143):
identical to `runPipelineV1` except that only files whose name matches
`*.svg` are discovered at all. -/
def runPipelineV2 (font_file_path : List Char)
    (getGlyphID : List Char → Option Nat) (files : List FileEnt) :
    RunOutcome :=
  let validated := validate_svg_files (files.filter (fun f => endsWithSvg f.name))
  if validated.isEmpty then .noSvgFiles
  else (process_font_file font_file_path getGlyphID validated).2

/-- Relation expressing that `t` arises from `s` purely by deleting whitespace
runs standing directly between a `>` and the next `<`; every other character
is kept unchanged and in order. -/
inductive OnlyWsRemoved : List Char → List Char → Prop
  | nil : OnlyWsRemoved [] []
  | keep (c : Char) {s t : List Char} : OnlyWsRemoved s t →
      OnlyWsRemoved (c :: s) (c :: t)
  | dropRun {run s t : List Char} (hne : run ≠ [])
      (hws : ∀ c ∈ run, isPyWs c = true) (hlt : s.head? = some '<')
      (h : OnlyWsRemoved s t) : OnlyWsRemoved ('>' :: (run ++ s)) ('>' :: t)

/-- The diagnostics produced by the `process_font_file` loop: one message per
candidate whose glyph name is missing from the font. -/
def pdiags (fontName : List Char) (getGlyphID : List Char → Option Nat) :
    List FileEnt → List (List Char)
  | [] => []
  | f :: fs =>
    match getGlyphID (get_glyph_name_from_file_name f.name) with
    | none => err_missing_glyph (get_glyph_name_from_file_name f.name) fontName ::
        pdiags fontName getGlyphID fs
    | some _ => pdiags fontName getGlyphID fs

/-- Whether a candidate stays inside the modelled literal fragment: it either
misses resolution (and only prints a diagnostic) or its normalization
completes without an `re.error` death or unmodelled regex substitution. -/
def file_clean (getGlyphID : List Char → Option Nat) (f : FileEnt) : Bool :=
  match getGlyphID (get_glyph_name_from_file_name f.name) with
  | none => true
  | some gid =>
    match svg_item_pipeline f.content gid with
    | .ok _ => true
    | _ => false

/-- The bindings `(glyphId, normalizedDocument)` produced by resolution and
successful normalization, in processing order. -/
def resolved_bindings (getGlyphID : List Char → Option Nat) :
    List FileEnt → List (Nat × List Char)
  | [] => []
  | f :: fs =>
    match getGlyphID (get_glyph_name_from_file_name f.name) with
    | none => resolved_bindings getGlyphID fs
    | some gid =>
      match svg_item_pipeline f.content gid with
      | .ok doc => (gid, doc) :: resolved_bindings getGlyphID fs
      | _ => resolved_bindings getGlyphID fs

/-- The table built from a sequence of bindings: last-write-wins accumulation
into the keyed dictionary, then ordered extraction. -/
def table_of_bindings (bs : List (Nat × List Char)) : List SVGRecord :=
  svg_docs_list (bs.foldl (fun d b => dinsert d b.1 b.2) [])

/-! Basic facts about `leadsWith`, `substr_at`, `containsSub`. -/

theorem leadsWith_eq_append {pat s : List Char} (h : leadsWith pat s = true) :
    s = pat ++ s.drop pat.length := by
  induction pat generalizing s with
  | nil => simp
  | cons p ps ih =>
    cases s with
    | nil => simp [leadsWith] at h
    | cons c rest =>
      simp only [leadsWith, Bool.and_eq_true, beq_iff_eq] at h
      simpa [h.1] using ih h.2

theorem leadsWith_append_self (pat t : List Char) :
    leadsWith pat (pat ++ t) = true := by
  induction pat with
  | nil => simp [leadsWith]
  | cons p ps ih => simp [leadsWith, ih]

theorem leadsWith_take (n : Nat) (t : List Char) :
    leadsWith (t.take n) t = true := by
  induction t generalizing n with
  | nil => cases n <;> simp [leadsWith]
  | cons c rest ih =>
    cases n with
    | zero => simp [leadsWith]
    | succ m => simp [leadsWith, ih]

theorem leadsWith_length_le {pat s : List Char} (h : leadsWith pat s = true) :
    pat.length ≤ s.length := by
  have := leadsWith_eq_append h
  have : s.length = pat.length + (s.drop pat.length).length := by
    conv_lhs => rw [this]
    simp
  omega

theorem substr_at_cons_succ (c : Char) (t pat : List Char) (i : Nat) :
    substr_at (c :: t) pat (i + 1) = substr_at t pat i := rfl

theorem containsSub_cons (pat : List Char) (c : Char) (rest : List Char) :
    containsSub pat (c :: rest) =
      (leadsWith pat (c :: rest) || containsSub pat rest) := by
  simp only [containsSub, List.length_cons, List.range_succ_eq_map, List.any_cons,
    List.any_map]
  rfl

theorem containsSub_of_substr_at {pat s : List Char} {i : Nat}
    (hi : i ≤ s.length) (h : substr_at s pat i = true) :
    containsSub pat s = true := by
  refine List.any_eq_true.mpr ⟨i, List.mem_range.mpr ?_, h⟩
  omega

theorem exists_substr_at_of_containsSub {pat s : List Char}
    (h : containsSub pat s = true) : ∃ i, substr_at s pat i = true := by
  rcases List.any_eq_true.mp h with ⟨i, _, hi⟩
  exact ⟨i, hi⟩

theorem containsSub_append_self (l t : List Char) :
    containsSub l (l ++ t) = true := by
  refine containsSub_of_substr_at (i := 0) (by simp) ?_
  simpa [substr_at] using leadsWith_append_self l t

theorem containsSub_cons_of_containsSub {pat : List Char} {c : Char}
    {t : List Char} (h : containsSub pat t = true) :
    containsSub pat (c :: t) = true := by
  rw [containsSub_cons, h, Bool.or_true]

/-! Fuel irrelevance and unfolding equations for `replaceAll`. -/

theorem replaceAllF_irrel :
    ∀ f₁ f₂ pat repl s, s.length < f₁ → s.length < f₂ →
      replaceAllF f₁ pat repl s = replaceAllF f₂ pat repl s := by
  intro f₁
  induction f₁ with
  | zero => intro f₂ pat repl s h1 _; omega
  | succ f ih =>
    intro f₂ pat repl s h1 h2
    cases s with
    | nil =>
      cases f₂ with
      | zero => omega
      | succ f₂ => rfl
    | cons c rest =>
      cases f₂ with
      | zero => omega
      | succ f₂ =>
        simp only [replaceAllF]
        by_cases hc : pat ≠ [] ∧ leadsWith pat (c :: rest) = true
        · rw [if_pos hc, if_pos hc]
          congr 1
          apply ih
          · have hp : 1 ≤ pat.length := by
              cases pat with
              | nil => exact absurd rfl hc.1
              | cons _ _ => simp
            simp only [List.length_drop, List.length_cons] at *
            omega
          · have hp : 1 ≤ pat.length := by
              cases pat with
              | nil => exact absurd rfl hc.1
              | cons _ _ => simp
            simp only [List.length_drop, List.length_cons] at *
            omega
        · rw [if_neg hc, if_neg hc]
          congr 1
          apply ih
          · simp only [List.length_cons] at h1; omega
          · simp only [List.length_cons] at h2; omega

theorem replaceAll_nil (pat repl : List Char) : replaceAll pat repl [] = [] := rfl

theorem replaceAll_cons_pos {pat : List Char} (repl : List Char) {c : Char}
    {rest : List Char} (hp : pat ≠ []) (h : leadsWith pat (c :: rest) = true) :
    replaceAll pat repl (c :: rest) =
      repl ++ replaceAll pat repl ((c :: rest).drop pat.length) := by
  have hp1 : 1 ≤ pat.length := by
    cases pat with
    | nil => exact absurd rfl hp
    | cons _ _ => simp
  simp only [replaceAll, replaceAllF, if_pos (And.intro hp h)]
  congr 1
  apply replaceAllF_irrel
  · simp only [List.length_drop, List.length_cons]; omega
  · omega

theorem replaceAll_cons_neg {pat : List Char} (repl : List Char) {c : Char}
    {rest : List Char} (h : ¬(pat ≠ [] ∧ leadsWith pat (c :: rest) = true)) :
    replaceAll pat repl (c :: rest) = c :: replaceAll pat repl rest := by
  simp only [replaceAll, replaceAllF, if_neg h, List.length_cons]

theorem replaceAll_self (pat s : List Char) : replaceAll pat pat s = s := by
  have key : ∀ n (t : List Char), t.length ≤ n → replaceAll pat pat t = t := by
    intro n
    induction n with
    | zero =>
      intro t ht
      cases t with
      | nil => rfl
      | cons c rest => simp at ht
    | succ n ih =>
      intro t ht
      cases t with
      | nil => rfl
      | cons c rest =>
        by_cases hc : pat ≠ [] ∧ leadsWith pat (c :: rest) = true
        · rw [replaceAll_cons_pos pat hc.1 hc.2]
          have hp1 : 0 < pat.length := List.length_pos.mpr hc.1
          have hd : ((c :: rest).drop pat.length).length ≤ n := by
            simp only [List.length_drop, List.length_cons]
            simp only [List.length_cons] at ht
            omega
          rw [ih _ hd]
          exact (leadsWith_eq_append hc.2).symm
        · rw [replaceAll_cons_neg pat hc]
          have hd : rest.length ≤ n := by
            simp only [List.length_cons] at ht; omega
          rw [ih _ hd]
  exact key s.length s le_rfl

theorem replaceAll_of_not_contains {pat repl : List Char}
    (s : List Char) (h : containsSub pat s = false) :
    replaceAll pat repl s = s := by
  have key : ∀ n (t : List Char), t.length ≤ n → containsSub pat t = false →
      replaceAll pat repl t = t := by
    intro n
    induction n with
    | zero =>
      intro t ht _
      cases t with
      | nil => rfl
      | cons c rest => simp at ht
    | succ n ih =>
      intro t ht hc
      cases t with
      | nil => rfl
      | cons c rest =>
        rw [containsSub_cons] at hc
        simp only [Bool.or_eq_false_iff] at hc
        rw [replaceAll_cons_neg repl (by simp [hc.1])]
        have hd : rest.length ≤ n := by
          simp only [List.length_cons] at ht; omega
        rw [ih _ hd hc.2]
  exact key s.length s le_rfl h

theorem replaceAll_contains_repl {pat repl : List Char} (hp : pat ≠ [])
    (s : List Char) (h : containsSub pat s = true) :
    containsSub repl (replaceAll pat repl s) = true := by
  have key : ∀ n (t : List Char), t.length ≤ n → containsSub pat t = true →
      containsSub repl (replaceAll pat repl t) = true := by
    intro n
    induction n with
    | zero =>
      intro t ht hc
      cases t with
      | nil =>
        rcases exists_substr_at_of_containsSub hc with ⟨i, hi⟩
        cases pat with
        | nil => exact absurd rfl hp
        | cons p ps => simp [substr_at, leadsWith] at hi
      | cons c rest => simp at ht
    | succ n ih =>
      intro t ht hc
      cases t with
      | nil =>
        rcases exists_substr_at_of_containsSub hc with ⟨i, hi⟩
        cases pat with
        | nil => exact absurd rfl hp
        | cons p ps => simp [substr_at, leadsWith] at hi
      | cons c rest =>
        by_cases hlw : leadsWith pat (c :: rest) = true
        · rw [replaceAll_cons_pos repl hp hlw]
          exact containsSub_append_self repl _
        · rw [replaceAll_cons_neg repl (by simp [hlw])]
          rw [containsSub_cons] at hc
          simp only [hlw, Bool.false_or] at hc
          have hd : rest.length ≤ n := by
            simp only [List.length_cons] at ht; omega
          exact containsSub_cons_of_containsSub (ih _ hd hc)
  exact key s.length s le_rfl h

theorem replaceAll_unique_occurrence {pat : List Char} (repl : List Char)
    (hp : pat ≠ []) :
    ∀ u v, (∀ i, substr_at (u ++ pat ++ v) pat i = true → i = u.length) →
      replaceAll pat repl (u ++ pat ++ v) = u ++ repl ++ v := by
  intro u
  induction u with
  | nil =>
    intro v h
    simp only [List.nil_append] at h ⊢
    cases pat with
    | nil => exact absurd rfl hp
    | cons p ps =>
      have hv : containsSub (p :: ps) v = false := by
        cases hcv : containsSub (p :: ps) v with
        | false => rfl
        | true =>
          exfalso
          rcases exists_substr_at_of_containsSub hcv with ⟨i, hi⟩
          have h2 : substr_at ((p :: ps) ++ v) (p :: ps)
              ((p :: ps).length + i) = true := by
            simp only [substr_at, List.drop_append]
            exact hi
          have h3 := h _ h2
          simp only [List.length_cons, List.length_nil] at h3
          omega
      show replaceAll (p :: ps) repl (p :: (ps ++ v)) = repl ++ v
      have hlw : leadsWith (p :: ps) (p :: (ps ++ v)) = true :=
        leadsWith_append_self (p :: ps) v
      rw [replaceAll_cons_pos repl hp hlw]
      have hdv : (p :: (ps ++ v)).drop (p :: ps).length = v :=
        List.drop_left (p :: ps) v
      rw [hdv, replaceAll_of_not_contains v hv]
  | cons c u ih =>
    intro v h
    have hne : ¬(pat ≠ [] ∧ leadsWith pat (c :: (u ++ pat ++ v)) = true) := by
      rintro ⟨-, hlw⟩
      have h0 : substr_at ((c :: u) ++ pat ++ v) pat 0 = true := by
        simpa [substr_at] using hlw
      have h1 := h 0 h0
      simp at h1
    show replaceAll pat repl (c :: (u ++ pat ++ v)) = (c :: u) ++ repl ++ v
    rw [replaceAll_cons_neg repl hne]
    have hrec := ih v (fun i hi => by
      have h2 := h (i + 1) (by
        show substr_at (c :: (u ++ pat ++ v)) pat (i + 1) = true
        rw [substr_at_cons_succ]
        exact hi)
      simpa using h2)
    rw [hrec]
    simp

/-! Fuel irrelevance and unfolding equations for `compact_white_space`. -/

theorem compactWsF_irrel :
    ∀ f₁ f₂ s, s.length < f₁ → s.length < f₂ → compactWsF f₁ s = compactWsF f₂ s := by
  intro f₁
  induction f₁ with
  | zero => intro f₂ s h1 _; omega
  | succ f ih =>
    intro f₂ s h1 h2
    cases s with
    | nil =>
      cases f₂ with
      | zero => omega
      | succ f₂ => rfl
    | cons c rest =>
      cases f₂ with
      | zero => omega
      | succ f₂ =>
        simp only [List.length_cons] at h1 h2
        simp only [compactWsF]
        by_cases hgt : c = '>'
        · rw [if_pos hgt, if_pos hgt]
          by_cases hcond : rest.takeWhile isPyWs ≠ [] ∧
              (rest.drop (rest.takeWhile isPyWs).length).head? = some '<'
          · rw [if_pos hcond, if_pos hcond]
            congr 1
            apply ih
            · simp only [List.length_drop]; omega
            · simp only [List.length_drop]; omega
          · rw [if_neg hcond, if_neg hcond]
            congr 1
            apply ih <;> omega
        · rw [if_neg hgt, if_neg hgt]
          congr 1
          apply ih <;> omega

theorem compact_ws_nil : compact_white_space [] = [] := rfl

theorem compact_ws_cons_ne {c : Char} (t : List Char) (hc : c ≠ '>') :
    compact_white_space (c :: t) = c :: compact_white_space t := by
  simp only [compact_white_space, List.length_cons, compactWsF, if_neg hc]

theorem compact_ws_gt_pos {t : List Char} (h1 : t.takeWhile isPyWs ≠ [])
    (h2 : (t.drop (t.takeWhile isPyWs).length).head? = some '<') :
    compact_white_space ('>' :: t) =
      '>' :: compact_white_space (t.drop (t.takeWhile isPyWs).length) := by
  simp only [compact_white_space, List.length_cons, compactWsF, if_pos rfl,
    if_pos (And.intro h1 h2), if_true]
  congr 1
  apply compactWsF_irrel
  · simp only [List.length_drop]; omega
  · simp only [List.length_drop]; omega

theorem compact_ws_gt_neg {t : List Char}
    (h : ¬(t.takeWhile isPyWs ≠ [] ∧
        (t.drop (t.takeWhile isPyWs).length).head? = some '<')) :
    compact_white_space ('>' :: t) = '>' :: compact_white_space t := by
  simp only [compact_white_space, List.length_cons, compactWsF, if_pos rfl,
    if_neg h, if_true]

theorem isPyWs_ne_gt {c : Char} (h : isPyWs c = true) : c ≠ '>' := by
  intro hc
  subst hc
  exact absurd h (by decide)

theorem isPyWs_ne_lt {c : Char} (h : isPyWs c = true) : c ≠ '<' := by
  intro hc
  subst hc
  exact absurd h (by decide)

theorem compact_ws_ws_append {run : List Char}
    (hrun : ∀ c ∈ run, isPyWs c = true) (t : List Char) :
    compact_white_space (run ++ t) = run ++ compact_white_space t := by
  induction run with
  | nil => simp
  | cons c rs ih =>
    have hc : c ≠ '>' := isPyWs_ne_gt (hrun c (by simp))
    rw [List.cons_append, compact_ws_cons_ne _ hc,
      ih (fun d hd => hrun d (by simp [hd]))]
    rfl

theorem compact_ws_cons_head (c : Char) (t : List Char) :
    ∃ u, compact_white_space (c :: t) = c :: u := by
  by_cases hc : c = '>'
  · subst hc
    by_cases hcond : t.takeWhile isPyWs ≠ [] ∧
        (t.drop (t.takeWhile isPyWs).length).head? = some '<'
    · exact ⟨_, compact_ws_gt_pos hcond.1 hcond.2⟩
    · exact ⟨_, compact_ws_gt_neg hcond⟩
  · exact ⟨_, compact_ws_cons_ne t hc⟩

theorem drop_length_takeWhile (p : Char → Bool) :
    ∀ l : List Char, l.drop (l.takeWhile p).length = l.dropWhile p := by
  intro l
  induction l with
  | nil => rfl
  | cons c t ih =>
    by_cases hc : p c = true
    · rw [List.takeWhile_cons_of_pos hc, List.dropWhile_cons_of_pos hc]
      simpa using ih
    · rw [List.takeWhile_cons_of_neg (by simpa using hc),
        List.dropWhile_cons_of_neg (by simpa using hc)]
      rfl

theorem dropWhile_head_not (p : Char → Bool) :
    ∀ {l : List Char} {d : Char} {u : List Char},
      l.dropWhile p = d :: u → p d = false := by
  intro l
  induction l with
  | nil => intro d u h; simp at h
  | cons c t ih =>
    intro d u h
    by_cases hc : p c = true
    · rw [List.dropWhile_cons_of_pos hc] at h
      exact ih h
    · rw [List.dropWhile_cons_of_neg (by simpa using hc)] at h
      cases h
      simpa using hc

theorem takeWhile_all (p : Char → Bool) :
    ∀ l : List Char, (∀ c ∈ l, p c = true) → l.takeWhile p = l := by
  intro l
  induction l with
  | nil => intro _; rfl
  | cons c t ih =>
    intro h
    rw [List.takeWhile_cons_of_pos (h c (by simp))]
    rw [ih (fun d hd => h d (by simp [hd]))]

theorem takeWhile_append_not (p : Char → Bool) {run : List Char} {d : Char}
    (l : List Char) (hws : ∀ c ∈ run, p c = true) (hd : p d = false) :
    (run ++ d :: l).takeWhile p = run := by
  induction run with
  | nil =>
    rw [List.nil_append]
    exact List.takeWhile_cons_of_neg (by simp [hd])
  | cons c t ih =>
    rw [List.cons_append, List.takeWhile_cons_of_pos (hws c (by simp))]
    rw [ih (fun e he => hws e (by simp [he]))]

theorem takeWhile_len_le (p : Char → Bool) :
    ∀ l : List Char, (l.takeWhile p).length ≤ l.length := by
  intro l
  induction l with
  | nil => simp
  | cons c t ih =>
    by_cases hc : p c = true
    · rw [List.takeWhile_cons_of_pos hc]
      simpa using ih
    · rw [List.takeWhile_cons_of_neg (by simpa using hc)]
      simp

/-- The whitespace compaction of the `process_font_file` loop is idempotent. -/
theorem compact_ws_idem (s : List Char) :
    compact_white_space (compact_white_space s) = compact_white_space s := by
  have key : ∀ n (t : List Char), t.length ≤ n →
      compact_white_space (compact_white_space t) = compact_white_space t := by
    intro n
    induction n with
    | zero =>
      intro t ht
      cases t with
      | nil => rfl
      | cons c rest => simp at ht
    | succ n ih =>
      intro t ht
      cases t with
      | nil => rfl
      | cons c rest =>
        simp only [List.length_cons] at ht
        by_cases hgt : c = '>'
        · subst hgt
          by_cases hcond : rest.takeWhile isPyWs ≠ [] ∧
              (rest.drop (rest.takeWhile isPyWs).length).head? = some '<'
          · rw [compact_ws_gt_pos hcond.1 hcond.2]
            have hd : (rest.drop (rest.takeWhile isPyWs).length).length ≤ n := by
              simp only [List.length_drop]
              have := List.length_pos.mpr hcond.1
              have h2 : (rest.takeWhile isPyWs).length ≤ rest.length :=
                takeWhile_len_le _ _
              omega
            have hidem := ih _ hd
            obtain ⟨r3, hr3⟩ : ∃ r3,
                rest.drop (rest.takeWhile isPyWs).length = '<' :: r3 := by
              rcases hh : rest.drop (rest.takeWhile isPyWs).length with _ | ⟨d, r3⟩
              · rw [hh] at hcond; simp at hcond
              · rw [hh] at hcond
                have := hcond.2
                simp only [List.head?_cons, Option.some_inj] at this
                exact ⟨r3, by rw [this]⟩
            obtain ⟨u, hu⟩ : ∃ u,
                compact_white_space (rest.drop (rest.takeWhile isPyWs).length) =
                  '<' :: u := by
              rw [hr3, compact_ws_cons_ne _ (by decide)]
              exact ⟨_, rfl⟩
            calc
              compact_white_space
                  ('>' :: compact_white_space (rest.drop (rest.takeWhile isPyWs).length))
                  = compact_white_space ('>' :: ('<' :: u)) := by rw [hu]
              _ = '>' :: compact_white_space ('<' :: u) := by
                    refine compact_ws_gt_neg ?_
                    rintro ⟨hne, -⟩
                    rw [List.takeWhile_cons_of_neg (by decide)] at hne
                    exact hne rfl
              _ = '>' :: compact_white_space
                    (compact_white_space (rest.drop (rest.takeWhile isPyWs).length)) := by
                    rw [hu]
              _ = '>' :: compact_white_space (rest.drop (rest.takeWhile isPyWs).length) := by
                    rw [hidem]
          · rw [compact_ws_gt_neg hcond]
            have hws : ∀ c ∈ rest.takeWhile isPyWs, isPyWs c = true :=
              fun c hc => List.mem_takeWhile_imp hc
            have hcr : compact_white_space rest =
                rest.takeWhile isPyWs ++ compact_white_space (rest.dropWhile isPyWs) := by
              conv_lhs => rw [← List.takeWhile_append_dropWhile (p := isPyWs) (l := rest)]
              exact compact_ws_ws_append hws _
            have hd2 : (rest.dropWhile isPyWs).length ≤ n := by
              rw [← drop_length_takeWhile]
              simp only [List.length_drop]
              omega
            rcases hrest2 : rest.dropWhile isPyWs with _ | ⟨d, r2⟩
            · -- the tail of `rest` is pure whitespace
              have hrun : compact_white_space rest = rest.takeWhile isPyWs := by
                rw [hcr, hrest2, compact_ws_nil, List.append_nil]
              rw [hrun]
              have htw : (rest.takeWhile isPyWs).takeWhile isPyWs =
                  rest.takeWhile isPyWs := takeWhile_all _ _ hws
              rw [compact_ws_gt_neg (by
                rintro ⟨-, hhead⟩
                rw [htw, List.drop_length] at hhead
                simp at hhead)]
              have : compact_white_space (rest.takeWhile isPyWs) =
                  rest.takeWhile isPyWs := by
                have := compact_ws_ws_append hws ([] : List Char)
                simpa [compact_ws_nil] using this
              rw [this]
            · -- the tail of `rest` continues with a non-whitespace character
              have hdws : isPyWs d = false := dropWhile_head_not isPyWs hrest2
              obtain ⟨u, hu⟩ := compact_ws_cons_head d r2
              have hcr2 : compact_white_space rest =
                  rest.takeWhile isPyWs ++ (d :: u) := by
                rw [hcr, hrest2, hu]
              rw [hcr2]
              have htw : (rest.takeWhile isPyWs ++ (d :: u)).takeWhile isPyWs =
                  rest.takeWhile isPyWs := takeWhile_append_not _ _ hws hdws
              have hcond2 : ¬((rest.takeWhile isPyWs ++ (d :: u)).takeWhile isPyWs ≠ [] ∧
                  ((rest.takeWhile isPyWs ++ (d :: u)).drop
                    ((rest.takeWhile isPyWs ++ (d :: u)).takeWhile isPyWs).length).head? =
                      some '<') := by
                rintro ⟨hne, hhead⟩
                rw [htw] at hne hhead
                rw [List.drop_left] at hhead
                simp only [List.head?_cons, Option.some_inj] at hhead
                refine hcond ⟨hne, ?_⟩
                rw [drop_length_takeWhile, hrest2]
                simp [hhead]
              rw [compact_ws_gt_neg hcond2]
              rw [compact_ws_ws_append hws (d :: u), ← hu,
                ih (d :: r2) (by rw [← hrest2]; exact hd2)]
        · rw [compact_ws_cons_ne _ hgt]
          obtain ⟨u, hu⟩ := compact_ws_cons_head c rest
          rw [compact_ws_cons_ne _ hgt] at hu
          have hu2 : compact_white_space rest = u := by
            have := hu
            simp only [List.cons_inj_right] at this
            exact this
          rw [compact_ws_cons_ne _ hgt]
          rw [ih _ (by omega)]
  exact key s.length s le_rfl


/-- Whitespace compaction only deletes whitespace runs between `>` and `<`. -/
theorem only_ws_removed_compact (s : List Char) :
    OnlyWsRemoved s (compact_white_space s) := by
  have key : ∀ n (t : List Char), t.length ≤ n →
      OnlyWsRemoved t (compact_white_space t) := by
    intro n
    induction n with
    | zero =>
      intro t ht
      cases t with
      | nil => exact OnlyWsRemoved.nil
      | cons c rest => simp at ht
    | succ n ih =>
      intro t ht
      cases t with
      | nil => exact OnlyWsRemoved.nil
      | cons c rest =>
        simp only [List.length_cons] at ht
        by_cases hgt : c = '>'
        · subst hgt
          by_cases hcond : rest.takeWhile isPyWs ≠ [] ∧
              (rest.drop (rest.takeWhile isPyWs).length).head? = some '<'
          · rw [compact_ws_gt_pos hcond.1 hcond.2]
            have hsplit : rest = rest.takeWhile isPyWs ++
                rest.drop (rest.takeWhile isPyWs).length := by
              rw [drop_length_takeWhile]
              exact (List.takeWhile_append_dropWhile (p := isPyWs) (l := rest)).symm
            have hws : ∀ c ∈ rest.takeWhile isPyWs, isPyWs c = true :=
              fun c hc => List.mem_takeWhile_imp hc
            have hd : (rest.drop (rest.takeWhile isPyWs).length).length ≤ n := by
              simp only [List.length_drop]
              have := List.length_pos.mpr hcond.1
              have h2 : (rest.takeWhile isPyWs).length ≤ rest.length :=
                takeWhile_len_le _ _
              omega
            conv_lhs => rw [hsplit]
            exact OnlyWsRemoved.dropRun hcond.1 hws hcond.2 (ih _ hd)
          · rw [compact_ws_gt_neg hcond]
            exact OnlyWsRemoved.keep '>' (ih _ (by omega))
        · rw [compact_ws_cons_ne _ hgt]
          exact OnlyWsRemoved.keep c (ih _ (by omega))
  exact key s.length s le_rfl

/-! Dictionary, assembly and fold lemmas for `process_font_file`. -/

theorem dinsert_keys (d : List (Nat × List Char)) (k : Nat) (v : List Char) :
    (dinsert d k v).map Prod.fst =
      if k ∈ d.map Prod.fst then d.map Prod.fst else d.map Prod.fst ++ [k] := by
  induction d with
  | nil => simp [dinsert]
  | cons p rest ih =>
    obtain ⟨k', v'⟩ := p
    by_cases hk : k' = k
    · subst hk
      simp [dinsert]
    · simp only [dinsert, if_neg hk, List.map_cons, ih]
      by_cases hmem : k ∈ rest.map Prod.fst
      · simp [hmem, List.mem_cons, Ne.symm hk]
      · simp [hmem, List.mem_cons, Ne.symm hk]

theorem dinsert_keys_nodup {d : List (Nat × List Char)}
    (h : (d.map Prod.fst).Nodup) (k : Nat) (v : List Char) :
    ((dinsert d k v).map Prod.fst).Nodup := by
  rw [dinsert_keys]
  by_cases hmem : k ∈ d.map Prod.fst
  · simpa [hmem] using h
  · rw [if_neg hmem]
    refine List.Nodup.append h (List.nodup_singleton k) ?_
    intro a ha hb
    simp only [List.mem_singleton] at hb
    subst hb
    exact hmem ha

theorem dlookup_dinsert_self (d : List (Nat × List Char)) (k : Nat)
    (v : List Char) : dlookup (dinsert d k v) k = some v := by
  induction d with
  | nil => simp [dinsert, dlookup]
  | cons p rest ih =>
    obtain ⟨k', v'⟩ := p
    by_cases hk : k' = k
    · subst hk
      simp [dinsert, dlookup]
    · simp [dinsert, dlookup, hk, ih]


theorem ploop_dgs (fn : List Char) (g : List Char → Option Nat) :
    ∀ (fs : List FileEnt) (dgs : List (List Char)) (dict : List (Nat × List Char)),
      ploop fn g fs dgs dict =
        (dgs ++ (ploop fn g fs [] dict).1, (ploop fn g fs [] dict).2) := by
  intro fs
  induction fs with
  | nil => intro dgs dict; simp [ploop]
  | cons f fs ih =>
    intro dgs dict
    cases hg : g (get_glyph_name_from_file_name f.name) with
    | none =>
      simp only [ploop, hg]
      rw [ih (dgs ++ [err_missing_glyph (get_glyph_name_from_file_name f.name) fn]),
        ih ([] ++ [err_missing_glyph (get_glyph_name_from_file_name f.name) fn])]
      simp
    | some gid =>
      cases hi : svg_item_pipeline f.content gid with
      | ok doc =>
        simp only [ploop, hg, hi]
        rw [ih dgs]
      | error => simp [ploop, hg, hi]
      | unmodelled => simp [ploop, hg, hi]

theorem ploop_ok_dict (fn : List Char) (g : List Char → Option Nat) :
    ∀ (fs : List FileEnt) (dgs : List (List Char)) (dict : List (Nat × List Char))
      (dgs' : List (List Char)) (dict' : List (Nat × List Char)),
      ploop fn g fs dgs dict = (dgs', .ok dict') →
      dict' = (resolved_bindings g fs).foldl (fun d b => dinsert d b.1 b.2) dict := by
  intro fs
  induction fs with
  | nil =>
    intro dgs dict dgs' dict' h
    simp only [ploop, Prod.mk.injEq, PyResult.ok.injEq] at h
    simp [resolved_bindings, h.2]
  | cons f fs ih =>
    intro dgs dict dgs' dict' h
    cases hg : g (get_glyph_name_from_file_name f.name) with
    | none =>
      rw [ploop, hg] at h
      simpa [resolved_bindings, hg] using ih _ _ _ _ h
    | some gid =>
      cases hi : svg_item_pipeline f.content gid with
      | ok doc =>
        rw [ploop, hg] at h
        simp only [hi] at h
        simpa [resolved_bindings, hg, hi] using ih _ _ _ _ h
      | error =>
        rw [ploop, hg] at h
        simp [hi] at h
      | unmodelled =>
        rw [ploop, hg] at h
        simp [hi] at h

theorem fold_dinsert_keys_nodup :
    ∀ (bs : List (Nat × List Char)) (d : List (Nat × List Char)),
      (d.map Prod.fst).Nodup →
      ((bs.foldl (fun d b => dinsert d b.1 b.2) d).map Prod.fst).Nodup := by
  intro bs
  induction bs with
  | nil => intro d h; exact h
  | cons b rest ih =>
    intro d h
    exact ih _ (dinsert_keys_nodup h b.1 b.2)

theorem sorted_lt_of_sorted_le_nodup :
    ∀ {l : List Nat}, List.Sorted (· ≤ ·) l → l.Nodup →
      List.Sorted (· < ·) l := by
  intro l
  induction l with
  | nil => intro _ _; simp
  | cons a t ih =>
    intro hs hn
    rw [List.sorted_cons] at hs ⊢
    rw [List.nodup_cons] at hn
    refine ⟨fun b hb => lt_of_le_of_ne (hs.1 b hb) ?_, ih hs.2 hn.2⟩
    intro hab
    exact hn.1 (hab ▸ hb)

theorem svg_docs_list_gids (d : List (Nat × List Char)) :
    (svg_docs_list d).map SVGRecord.startGlyphID =
      List.insertionSort (· ≤ ·) (d.map Prod.fst) := by
  simp only [svg_docs_list, List.map_map]
  have : (SVGRecord.startGlyphID ∘ fun gid =>
      SVGRecord.mk (dlookupD d gid) gid gid) = id := by
    funext gid
    rfl
  rw [this, List.map_id]

theorem pdiags_append (fontName : List Char) (g : List Char → Option Nat) :
    ∀ xs ys : List FileEnt,
      pdiags fontName g (xs ++ ys) = pdiags fontName g xs ++ pdiags fontName g ys := by
  intro xs
  induction xs with
  | nil => intro ys; simp [pdiags]
  | cons f fs ih =>
    intro ys
    cases hg : g (get_glyph_name_from_file_name f.name) with
    | none => simp [pdiags, hg, ih]
    | some gid => simp [pdiags, hg, ih]

theorem ploop_skip_bad (fn : List Char) (g : List Char → Option Nat)
    (bad : FileEnt) (hbad : g (get_glyph_name_from_file_name bad.name) = none) :
    ∀ (xs : List FileEnt) (ys : List FileEnt) (dgs : List (List Char))
      (dict : List (Nat × List Char)),
      (ploop fn g (xs ++ bad :: ys) dgs dict).2 =
        (ploop fn g (xs ++ ys) dgs dict).2 := by
  intro xs
  induction xs with
  | nil =>
    intro ys dgs dict
    simp only [List.nil_append, ploop, hbad]
    rw [ploop_dgs fn g ys
      (dgs ++ [err_missing_glyph (get_glyph_name_from_file_name bad.name) fn]) dict,
      ploop_dgs fn g ys dgs dict]
  | cons f fs ih =>
    intro ys dgs dict
    cases hg : g (get_glyph_name_from_file_name f.name) with
    | none => simp only [List.cons_append, ploop, hg]; exact ih ys _ dict
    | some gid =>
      cases hi : svg_item_pipeline f.content gid with
      | ok doc => simp only [List.cons_append, ploop, hg, hi]; exact ih ys dgs _
      | error => simp [ploop, hg, hi]
      | unmodelled => simp [ploop, hg, hi]

theorem ploop_clean_front (fn : List Char) (g : List Char → Option Nat) :
    ∀ (xs : List FileEnt), (∀ f ∈ xs, file_clean g f = true) →
      ∀ (rest : List FileEnt) (dgs : List (List Char)) (dict : List (Nat × List Char)),
      ∃ dict', ploop fn g (xs ++ rest) dgs dict =
        ploop fn g rest (dgs ++ pdiags fn g xs) dict' := by
  intro xs
  induction xs with
  | nil =>
    intro _ rest dgs dict
    exact ⟨dict, by simp [pdiags]⟩
  | cons f fs ih =>
    intro hcl rest dgs dict
    have hf := hcl f (by simp)
    cases hg : g (get_glyph_name_from_file_name f.name) with
    | none =>
      obtain ⟨dict', hd⟩ := ih (fun f' hf' => hcl f' (by simp [hf'])) rest
        (dgs ++ [err_missing_glyph (get_glyph_name_from_file_name f.name) fn]) dict
      refine ⟨dict', ?_⟩
      have harg : (dgs ++ [err_missing_glyph (get_glyph_name_from_file_name f.name) fn]) ++
          pdiags fn g fs = dgs ++ pdiags fn g (f :: fs) := by
        simp [pdiags, hg]
      simp only [List.cons_append, ploop, hg]
      exact hd.trans (by rw [harg])
    | some gid =>
      cases hi : svg_item_pipeline f.content gid with
      | ok doc =>
        obtain ⟨dict', hd⟩ := ih (fun f' hf' => hcl f' (by simp [hf'])) rest dgs
          (dinsert dict gid doc)
        refine ⟨dict', ?_⟩
        have harg : dgs ++ pdiags fn g fs = dgs ++ pdiags fn g (f :: fs) := by
          simp [pdiags, hg]
        simp only [List.cons_append, ploop, hg, hi]
        exact hd.trans (by rw [harg])
      | error => simp [file_clean, hg, hi] at hf
      | unmodelled => simp [file_clean, hg, hi] at hf

theorem ploop_all_none (fn : List Char) (g : List Char → Option Nat) :
    ∀ (fs : List FileEnt),
      (∀ f ∈ fs, g (get_glyph_name_from_file_name f.name) = none) →
      ∀ (dgs : List (List Char)) (dict : List (Nat × List Char)),
      ploop fn g fs dgs dict = (dgs ++ pdiags fn g fs, .ok dict) := by
  intro fs
  induction fs with
  | nil => intro _ dgs dict; simp [ploop, pdiags]
  | cons f fs ih =>
    intro h dgs dict
    have hg := h f (by simp)
    simp only [ploop, hg]
    rw [ih (fun f' hf' => h f' (by simp [hf']))]
    simp [pdiags, hg]

theorem substr_at_lt_length {s pat : List Char} {i : Nat} (hp : pat ≠ [])
    (h : substr_at s pat i = true) : i < s.length := by
  by_contra hge
  push_neg at hge
  rw [substr_at, List.drop_eq_nil_of_le hge] at h
  cases pat with
  | nil => exact hp rfl
  | cons p ps => simp [leadsWith] at h

theorem find_view_box_some {s cap : List Char}
    (h : find_view_box s = some cap) :
    cap ≠ [] ∧ containsSub cap s = true := by
  unfold find_view_box at h
  split at h
  · simp at h
  · split at h
    · simp at h
    · next p h2 =>
      simp only [Option.some_inj] at h
      have hp : p < s.length := List.mem_range.mp (List.mem_of_find?_eq_some h2)
      constructor
      · rw [← h]
        intro hnil
        have hlen : ((s.drop p).take (11 + vb_run_len s p)).length = 0 := by
          rw [hnil]; rfl
        rw [List.length_take, List.length_drop] at hlen
        omega
      · refine containsSub_of_substr_at (le_of_lt hp) ?_
        rw [← h, substr_at]
        exact leadsWith_take _ _

/-- The table handed to the container writer by `process_font_file` is exactly
the table assembled, last-write-wins, from the resolved bindings. -/
theorem process_font_file_table (fp : List Char) (g : List Char → Option Nat)
    (files : List FileEnt) (recs : List SVGRecord)
    (h : (process_font_file fp g files).2 = RunOutcome.written recs) :
    recs = table_of_bindings (resolved_bindings g files) := by
  unfold process_font_file at h
  rcases hp : ploop (base_name fp) g files [] [] with ⟨dgs, res⟩
  rw [hp] at h
  cases res with
  | ok dict =>
    by_cases hd : dict.isEmpty
    · simp [hd] at h
    · simp only [hd, Bool.false_eq_true, if_false, RunOutcome.written.injEq] at h
      rw [← h, table_of_bindings, ← ploop_ok_dict (base_name fp) g files [] [] dgs dict hp]
  | error => simp at h
  | unmodelled => simp at h

/-! Support lemmas for the whitespace-removal loop and the capture-as-pattern
substitutions. -/

theorem containsSub_nil (c : Char) (l : List Char) : containsSub (c :: l) [] = false := rfl

theorem containsSub_append_right {pat : List Char} (u : List Char) {v : List Char}
    (h : containsSub pat v = true) : containsSub pat (u ++ v) = true := by
  induction u with
  | nil => simpa using h
  | cons a u2 ih =>
    rw [List.cons_append]
    exact containsSub_cons_of_containsSub ih

theorem containsSub_skip_front {pr : List Char} (p : List Char)
    (hp : ∀ c ∈ p, c ≠ '>') (v : List Char) :
    containsSub ('>' :: pr) (p ++ v) = containsSub ('>' :: pr) v := by
  induction p with
  | nil => simp
  | cons a p2 ih =>
    have ha : ('>' == a) = false := by
      have h1 : a ≠ '>' := hp a (by simp)
      simp only [beq_eq_false_iff_ne, ne_eq]
      exact fun hh => h1 hh.symm
    rw [List.cons_append, containsSub_cons]
    have hl : leadsWith ('>' :: pr) (a :: (p2 ++ v)) = false := by
      simp [leadsWith, ha]
    rw [hl, Bool.false_or, ih (fun c hc => hp c (by simp [hc]))]

theorem mem_takeWhile_holds (p : Char → Bool) :
    ∀ (l : List Char) (c : Char), c ∈ l.takeWhile p → p c = true := by
  intro l
  induction l with
  | nil => intro c hc; simp at hc
  | cons a t ih =>
    intro c hc
    by_cases ha : p a = true
    · rw [List.takeWhile_cons_of_pos ha] at hc
      rcases List.mem_cons.mp hc with rfl | hc2
      · exact ha
      · exact ih c hc2
    · rw [List.takeWhile_cons_of_neg (by simpa using ha)] at hc
      simp at hc

theorem drop_append_succ (run0 : List Char) (c : Char) (u : List Char) :
    (run0 ++ c :: u).drop (run0.length + 1) = u := by
  induction run0 with
  | nil => simp
  | cons a r ih => simp [ih]

theorem cond_decomp {t : List Char} (h1 : t.takeWhile isPyWs ≠ [])
    (h2 : (t.drop (t.takeWhile isPyWs).length).head? = some '<') :
    ∃ run0 u, run0 ≠ [] ∧ (∀ c ∈ run0, isPyWs c = true) ∧
      t = run0 ++ ('<' :: u) := by
  rw [drop_length_takeWhile] at h2
  cases hdw : t.dropWhile isPyWs with
  | nil => rw [hdw] at h2; simp at h2
  | cons d u =>
    rw [hdw] at h2
    simp only [List.head?_cons, Option.some_inj] at h2
    refine ⟨t.takeWhile isPyWs, u, h1,
      fun c hc => mem_takeWhile_holds isPyWs t c hc, ?_⟩
    rw [← h2, ← hdw]
    exact (List.takeWhile_append_dropWhile isPyWs t).symm

theorem ws_prefix_unique :
    ∀ (run run0 : List Char) (u : List Char),
      (∀ c ∈ run, isPyWs c = true) → (∀ c ∈ run0, isPyWs c = true) →
      leadsWith (run ++ ['<']) (run0 ++ ('<' :: u)) = true → run = run0 := by
  intro run
  induction run with
  | nil =>
    intro run0 u _ h0 h
    cases run0 with
    | nil => rfl
    | cons b r0 =>
      exfalso
      simp only [List.nil_append, List.cons_append, leadsWith, Bool.and_eq_true,
        beq_iff_eq] at h
      exact isPyWs_ne_lt (h0 b (by simp)) h.1.symm
  | cons a r ih =>
    intro run0 u hws h0 h
    cases run0 with
    | nil =>
      exfalso
      simp only [List.cons_append, List.nil_append, leadsWith, Bool.and_eq_true,
        beq_iff_eq] at h
      exact isPyWs_ne_lt (hws a (by simp)) h.1
    | cons b r0 =>
      simp only [List.cons_append, leadsWith, Bool.and_eq_true, beq_iff_eq] at h
      rw [h.1, ih r0 u (fun c hc => hws c (by simp [hc]))
        (fun c hc => h0 c (by simp [hc])) h.2]

theorem replaceAll_skip_front {pr : List Char} (repl : List Char) :
    ∀ (p : List Char), (∀ c ∈ p, c ≠ '>') → ∀ v,
      replaceAll ('>' :: pr) repl (p ++ v) = p ++ replaceAll ('>' :: pr) repl v := by
  intro p
  induction p with
  | nil => intro _ v; simp
  | cons a p2 ih =>
    intro h v
    have hneg : ¬(('>' :: pr) ≠ [] ∧
        leadsWith ('>' :: pr) (a :: (p2 ++ v)) = true) := by
      rintro ⟨-, hlw⟩
      simp only [leadsWith, Bool.and_eq_true, beq_iff_eq] at hlw
      exact h a (by simp) hlw.1.symm
    rw [List.cons_append, replaceAll_cons_neg repl hneg,
      ih (fun c hc => h c (by simp [hc])) v]
    rfl

theorem replaceAll_all_ws {pr : List Char} (repl : List Char) (p : List Char)
    (h : ∀ c ∈ p, isPyWs c = true) :
    replaceAll ('>' :: pr) repl p = p := by
  have h2 := @replaceAll_skip_front pr repl p (fun x hx => isPyWs_ne_gt (h x hx)) []
  simpa [replaceAll_nil] using h2

theorem replaceAll_cons_lt {pr : List Char} (repl : List Char) (u : List Char) :
    replaceAll ('>' :: pr) repl ('<' :: u) = '<' :: replaceAll ('>' :: pr) repl u := by
  refine replaceAll_cons_neg repl ?_
  rintro ⟨-, hlw⟩
  simp only [leadsWith, Bool.and_eq_true, beq_iff_eq] at hlw
  exact absurd hlw.1 (by decide)

theorem compact_ws_cons_lt (t : List Char) :
    compact_white_space ('<' :: t) = '<' :: compact_white_space t :=
  compact_ws_cons_ne t (by decide)

/-! The findall scanner: fuel irrelevance and unfolding equations. -/

theorem wsFindallF_irrel :
    ∀ f₁ f₂ s, s.length < f₁ → s.length < f₂ → wsFindallF f₁ s = wsFindallF f₂ s := by
  intro f₁
  induction f₁ with
  | zero => intro f₂ s h1 _; omega
  | succ f ih =>
    intro f₂ s h1 h2
    cases s with
    | nil =>
      cases f₂ with
      | zero => omega
      | succ f₂ => rfl
    | cons c rest =>
      cases f₂ with
      | zero => omega
      | succ f₂ =>
        simp only [wsFindallF]
        by_cases hc : c = '>'
        · rw [if_pos hc, if_pos hc]
          by_cases hcond : rest.takeWhile isPyWs ≠ [] ∧
              (rest.drop (rest.takeWhile isPyWs).length).head? = some '<'
          · rw [if_pos hcond, if_pos hcond]
            congr 1
            apply ih
            · have := takeWhile_len_le isPyWs rest
              simp only [List.length_drop, List.length_cons] at *
              omega
            · have := takeWhile_len_le isPyWs rest
              simp only [List.length_drop, List.length_cons] at *
              omega
          · rw [if_neg hcond, if_neg hcond]
            apply ih
            · simp only [List.length_cons] at h1; omega
            · simp only [List.length_cons] at h2; omega
        · rw [if_neg hc, if_neg hc]
          apply ih
          · simp only [List.length_cons] at h1; omega
          · simp only [List.length_cons] at h2; omega

theorem wsFindall_nil : wsFindall [] = [] := rfl

theorem wsFindall_cons_ne {c : Char} (t : List Char) (hc : c ≠ '>') :
    wsFindall (c :: t) = wsFindall t := by
  simp only [wsFindall, List.length_cons, wsFindallF, if_neg hc]

theorem wsFindall_gt_pos {t : List Char} (h1 : t.takeWhile isPyWs ≠ [])
    (h2 : (t.drop (t.takeWhile isPyWs).length).head? = some '<') :
    wsFindall ('>' :: t) =
      ('>' :: (t.takeWhile isPyWs ++ ['<'])) ::
        wsFindall (t.drop ((t.takeWhile isPyWs).length + 1)) := by
  simp only [wsFindall, List.length_cons, wsFindallF, if_pos rfl,
    if_pos (And.intro h1 h2), if_true]
  congr 1
  apply wsFindallF_irrel
  · simp only [List.length_drop]; omega
  · simp only [List.length_drop]; omega

theorem wsFindall_gt_neg {t : List Char}
    (h : ¬(t.takeWhile isPyWs ≠ [] ∧
        (t.drop (t.takeWhile isPyWs).length).head? = some '<')) :
    wsFindall ('>' :: t) = wsFindall t := by
  simp only [wsFindall, List.length_cons, wsFindallF, if_pos rfl, if_neg h, if_true]

theorem wsFindall_shape : ∀ s w, w ∈ wsFindall s → IsWsMatch w := by
  have key : ∀ n s, s.length ≤ n → ∀ w, w ∈ wsFindall s → IsWsMatch w := by
    intro n
    induction n with
    | zero =>
      intro s hs w hw
      have hs0 : s = [] := List.eq_nil_of_length_eq_zero (Nat.le_zero.mp hs)
      subst hs0
      simp [wsFindall_nil] at hw
    | succ n ih =>
      intro s hs w hw
      cases s with
      | nil => simp [wsFindall_nil] at hw
      | cons c t =>
        by_cases hcgt : c = '>'
        · subst hcgt
          by_cases hcond : t.takeWhile isPyWs ≠ [] ∧
              (t.drop (t.takeWhile isPyWs).length).head? = some '<'
          · rw [wsFindall_gt_pos hcond.1 hcond.2] at hw
            rcases List.mem_cons.mp hw with h1 | h2
            · exact ⟨t.takeWhile isPyWs, hcond.1,
                fun x hx => mem_takeWhile_holds isPyWs t x hx, h1⟩
            · refine ih (t.drop ((t.takeWhile isPyWs).length + 1)) ?_ w h2
              have hld := List.length_drop ((t.takeWhile isPyWs).length + 1) t
              simp only [List.length_cons] at hs
              omega
          · rw [wsFindall_gt_neg hcond] at hw
            exact ih t (by simp only [List.length_cons] at hs; omega) w hw
        · rw [wsFindall_cons_ne t hcgt] at hw
          exact ih t (by simp only [List.length_cons] at hs; omega) w hw
  intro s w hw
  exact key s.length s le_rfl w hw

/-- Completeness of the findall scan: every substring of `s` shaped like a
`white_space_regex` match is among the returned matches (its whitespace run is
automatically maximal, being fenced by `>` and `<`, and matches cannot
overlap). -/
theorem occ_mem_findall {v : List Char} (hv : IsWsMatch v) :
    ∀ s, containsSub v s = true → v ∈ wsFindall s := by
  obtain ⟨rv, hvne, hvws, rfl⟩ := hv
  have key : ∀ n s, s.length ≤ n →
      containsSub ('>' :: (rv ++ ['<'])) s = true →
      ('>' :: (rv ++ ['<'])) ∈ wsFindall s := by
    intro n
    induction n with
    | zero =>
      intro s hs hc
      have hs0 : s = [] := List.eq_nil_of_length_eq_zero (Nat.le_zero.mp hs)
      subst hs0
      rw [containsSub_nil] at hc
      exact absurd hc (by simp)
    | succ n ih =>
      intro s hs hc
      cases s with
      | nil =>
        rw [containsSub_nil] at hc
        exact absurd hc (by simp)
      | cons c t =>
        rw [containsSub_cons] at hc
        by_cases hcgt : c = '>'
        · subst hcgt
          by_cases hcond : t.takeWhile isPyWs ≠ [] ∧
              (t.drop (t.takeWhile isPyWs).length).head? = some '<'
          · obtain ⟨run0, u, hr0ne, hr0ws, hteq⟩ := cond_decomp hcond.1 hcond.2
            subst hteq
            have htw : (run0 ++ ('<' :: u)).takeWhile isPyWs = run0 :=
              takeWhile_append_not isPyWs u hr0ws (by decide)
            have hdw2 : (run0 ++ ('<' :: u)).drop
                ((run0 ++ ('<' :: u)).takeWhile isPyWs).length = '<' :: u := by
              rw [htw, List.drop_left]
            have h1w : (run0 ++ ('<' :: u)).takeWhile isPyWs ≠ [] := by
              rw [htw]; exact hr0ne
            have h2w : ((run0 ++ ('<' :: u)).drop
                ((run0 ++ ('<' :: u)).takeWhile isPyWs).length).head? = some '<' := by
              rw [hdw2]
              rfl
            have hfa : wsFindall ('>' :: (run0 ++ ('<' :: u))) =
                ('>' :: (run0 ++ ['<'])) :: wsFindall u := by
              rw [wsFindall_gt_pos h1w h2w, htw, drop_append_succ]
            rw [hfa]
            rcases (Bool.or_eq_true _ _).mp hc with h1 | h2
            · have hcc : leadsWith (rv ++ ['<']) (run0 ++ ('<' :: u)) = true := by
                simpa [leadsWith] using h1
              have hequ := ws_prefix_unique rv run0 u hvws hr0ws hcc
              subst hequ
              exact List.mem_cons_self _ _
            · have hskip : containsSub ('>' :: (rv ++ ['<'])) ((run0 ++ ['<']) ++ u) =
                  containsSub ('>' :: (rv ++ ['<'])) u := by
                refine containsSub_skip_front (run0 ++ ['<']) ?_ u
                intro x hx
                rcases List.mem_append.mp hx with hx1 | hx2
                · exact isPyWs_ne_gt (hr0ws x hx1)
                · simp only [List.mem_singleton] at hx2
                  subst hx2
                  decide
              have h2u : containsSub ('>' :: (rv ++ ['<'])) u = true := by
                rw [← hskip]
                simpa [List.append_assoc] using h2
              refine List.mem_cons_of_mem _ (ih u ?_ h2u)
              simp only [List.length_cons, List.length_append] at hs
              omega
          · rw [wsFindall_gt_neg hcond]
            rcases (Bool.or_eq_true _ _).mp hc with h1 | h2
            · exfalso
              have hcc : leadsWith (rv ++ ['<']) t = true := by
                simpa [leadsWith] using h1
              obtain ⟨u2, hteq⟩ : ∃ u2, t = rv ++ ('<' :: u2) :=
                ⟨t.drop (rv ++ ['<']).length, by
                  simpa [List.append_assoc] using leadsWith_eq_append hcc⟩
              apply hcond
              subst hteq
              have htw2 : (rv ++ ('<' :: u2)).takeWhile isPyWs = rv :=
                takeWhile_append_not isPyWs u2 hvws (by decide)
              constructor
              · rw [htw2]; exact hvne
              · rw [htw2, List.drop_left]
                rfl
            · exact ih t (by simp only [List.length_cons] at hs; omega) h2
        · rw [wsFindall_cons_ne t hcgt]
          rcases (Bool.or_eq_true _ _).mp hc with h1 | h2
          · exfalso
            have hcc : '>' = c ∧ leadsWith (rv ++ ['<']) t = true := by
              simpa [leadsWith] using h1
            exact hcgt hcc.1.symm
          · exact ih t (by simp only [List.length_cons] at hs; omega) h2
  intro s hc
  exact key s.length s le_rfl hc

/-- Pulling a whitespace-and-`<` prefix of a replacement result back to the
original text: the replacement string `><` can never supply it. -/
theorem leadsWith_pull {pat : List Char} (hp : pat ≠ []) :
    ∀ (rv : List Char), (∀ c ∈ rv, isPyWs c = true) →
      ∀ x, leadsWith (rv ++ ['<']) (replaceAll pat ['>', '<'] x) = true →
        leadsWith (rv ++ ['<']) x = true := by
  intro rv
  induction rv with
  | nil =>
    intro _ x h
    cases x with
    | nil => simp [replaceAll_nil, leadsWith] at h
    | cons c rest =>
      by_cases hlw : leadsWith pat (c :: rest) = true
      · exfalso
        rw [replaceAll_cons_pos _ hp hlw] at h
        simp only [List.nil_append, List.cons_append, leadsWith, Bool.and_eq_true,
          beq_iff_eq] at h
        exact absurd h.1 (by decide)
      · rw [replaceAll_cons_neg _ (fun hh => hlw hh.2)] at h
        simp only [List.nil_append, leadsWith, Bool.and_eq_true, beq_iff_eq] at h ⊢
        exact ⟨h.1, trivial⟩
  | cons a rv2 ih =>
    intro hws2 x h
    cases x with
    | nil => simp [replaceAll_nil, leadsWith] at h
    | cons c rest =>
      by_cases hlw : leadsWith pat (c :: rest) = true
      · exfalso
        rw [replaceAll_cons_pos _ hp hlw] at h
        simp only [List.cons_append, leadsWith, Bool.and_eq_true, beq_iff_eq] at h
        exact absurd (hws2 a (by simp)) (by rw [h.1]; decide)
      · rw [replaceAll_cons_neg _ (fun hh => hlw hh.2)] at h
        simp only [List.cons_append, leadsWith, Bool.and_eq_true, beq_iff_eq] at h ⊢
        exact ⟨h.1, ih (fun x hx => hws2 x (by simp [hx])) rest h.2⟩

/-- Transfer of match-shaped occurrences across one replacement: any string
shaped like a `white_space_regex` match that occurs in
`replaceAll w "><" t` already occurs in `t`, and it is not `w` itself (the
replaced occurrences are gone and the inserted `><` carries no whitespace). -/
theorem replaceAll_ws_occ {w v : List Char} (hw : IsWsMatch w) (hv : IsWsMatch v)
    (t : List Char)
    (h : containsSub v (replaceAll w ((r"><").toList) t) = true) :
    containsSub v t = true ∧ v ≠ w := by
  obtain ⟨rw0, hwne, hwws, hwe⟩ := hw
  obtain ⟨rv, hvne, hvws, hve⟩ := hv
  subst hwe
  subst hve
  rw [show (r"><").toList = ['>', '<'] from rfl] at h
  revert h
  have key : ∀ n t, t.length ≤ n →
      containsSub ('>' :: (rv ++ ['<']))
          (replaceAll ('>' :: (rw0 ++ ['<'])) ['>', '<'] t) = true →
      containsSub ('>' :: (rv ++ ['<'])) t = true ∧
        ('>' :: (rv ++ ['<'])) ≠ ('>' :: (rw0 ++ ['<'])) := by
    intro n
    induction n with
    | zero =>
      intro t ht hocc
      have ht0 : t = [] := List.eq_nil_of_length_eq_zero (Nat.le_zero.mp ht)
      subst ht0
      rw [replaceAll_nil, containsSub_nil] at hocc
      exact absurd hocc (by simp)
    | succ n ih =>
      intro t ht hocc
      cases t with
      | nil =>
        rw [replaceAll_nil, containsSub_nil] at hocc
        exact absurd hocc (by simp)
      | cons c rest =>
        by_cases hlw : leadsWith ('>' :: (rw0 ++ ['<'])) (c :: rest) = true
        · have hc : '>' = c ∧ leadsWith (rw0 ++ ['<']) rest = true := by
            simpa [leadsWith] using hlw
          obtain ⟨hc1, hc2⟩ := hc
          subst hc1
          obtain ⟨u, hrest⟩ : ∃ u, rest = rw0 ++ ('<' :: u) :=
            ⟨rest.drop (rw0 ++ ['<']).length, by
              simpa [List.append_assoc] using leadsWith_eq_append hc2⟩
          subst hrest
          have hlen2 : ('>' :: (rw0 ++ ['<'])).length = rw0.length + 1 + 1 := by simp
          have hdropu : ('>' :: (rw0 ++ ('<' :: u))).drop
              (('>' :: (rw0 ++ ['<'])).length) = u := by
            rw [hlen2, List.drop_succ_cons, drop_append_succ]
          rw [replaceAll_cons_pos _ (by simp) hlw, hdropu] at hocc
          rw [show (['>', '<'] ++ replaceAll ('>' :: (rw0 ++ ['<'])) ['>', '<'] u) =
            '>' :: ('<' :: replaceAll ('>' :: (rw0 ++ ['<'])) ['>', '<'] u) from rfl]
            at hocc
          rw [containsSub_cons, containsSub_cons] at hocc
          have hl1 : leadsWith ('>' :: (rv ++ ['<']))
              ('>' :: ('<' :: replaceAll ('>' :: (rw0 ++ ['<'])) ['>', '<'] u)) =
              false := by
            cases rv with
            | nil => exact absurd rfl hvne
            | cons a rv2 =>
              have ha : (a == '<') = false := by
                have h1 := isPyWs_ne_lt (hvws a (by simp))
                simp only [beq_eq_false_iff_ne, ne_eq]
                exact h1
              simp [leadsWith, ha]
          have hl2 : leadsWith ('>' :: (rv ++ ['<']))
              ('<' :: replaceAll ('>' :: (rw0 ++ ['<'])) ['>', '<'] u) = false := by
            simp [leadsWith, show (('>' : Char) == '<') = false from by decide]
          rw [hl1, hl2] at hocc
          simp only [Bool.false_or] at hocc
          have hu : u.length ≤ n := by
            simp only [List.length_cons, List.length_append] at ht
            omega
          obtain ⟨hcu, hne2⟩ := ih u hu hocc
          refine ⟨?_, hne2⟩
          have hstep1 : containsSub ('>' :: (rv ++ ['<'])) ('<' :: u) = true :=
            containsSub_cons_of_containsSub hcu
          have hstep2 : containsSub ('>' :: (rv ++ ['<'])) (rw0 ++ ('<' :: u)) = true :=
            containsSub_append_right rw0 hstep1
          exact containsSub_cons_of_containsSub hstep2
        · have hneg : ¬(('>' :: (rw0 ++ ['<'])) ≠ [] ∧
              leadsWith ('>' :: (rw0 ++ ['<'])) (c :: rest) = true) :=
            fun hh => hlw hh.2
          rw [replaceAll_cons_neg _ hneg, containsSub_cons] at hocc
          rcases (Bool.or_eq_true _ _).mp hocc with h1 | h2
          · have hc : '>' = c ∧ leadsWith (rv ++ ['<'])
                (replaceAll ('>' :: (rw0 ++ ['<'])) ['>', '<'] rest) = true := by
              simpa [leadsWith] using h1
            obtain ⟨hc1, hc2⟩ := hc
            subst hc1
            have hpull := leadsWith_pull (by simp) rv hvws rest hc2
            have hlv : leadsWith ('>' :: (rv ++ ['<'])) ('>' :: rest) = true := by
              simp [leadsWith, hpull]
            constructor
            · refine containsSub_of_substr_at (i := 0) (by simp) ?_
              show leadsWith ('>' :: (rv ++ ['<'])) (('>' :: rest).drop 0) = true
              rw [List.drop_zero]
              exact hlv
            · intro heq
              exact hlw (heq ▸ hlv)
          · have hrle : rest.length ≤ n := by
              simp only [List.length_cons] at ht; omega
            obtain ⟨hcr, hne2⟩ := ih rest hrle h2
            exact ⟨containsSub_cons_of_containsSub hcr, hne2⟩
  exact fun h => key t.length t le_rfl h

/-- Replacing one `white_space_regex` match string by `><` does not change
the one-pass whitespace compaction of a document. -/
theorem compact_replaceAll_ws {w : List Char} (hw : IsWsMatch w) (t : List Char) :
    compact_white_space (replaceAll w ((r"><").toList) t) = compact_white_space t := by
  obtain ⟨run, hne, hws, rfl⟩ := hw
  rw [show (r"><").toList = ['>', '<'] from rfl]
  have key : ∀ n t, t.length ≤ n →
      compact_white_space (replaceAll ('>' :: (run ++ ['<'])) ['>', '<'] t) =
        compact_white_space t := by
    intro n
    induction n with
    | zero =>
      intro t ht
      have ht0 : t = [] := List.eq_nil_of_length_eq_zero (Nat.le_zero.mp ht)
      subst ht0
      rfl
    | succ n ih =>
      intro t ht
      cases t with
      | nil => rfl
      | cons c rest =>
        by_cases hlw : leadsWith ('>' :: (run ++ ['<'])) (c :: rest) = true
        · have hc : '>' = c ∧ leadsWith (run ++ ['<']) rest = true := by
            simpa [leadsWith] using hlw
          obtain ⟨hc1, hc2⟩ := hc
          subst hc1
          obtain ⟨u, hrest⟩ : ∃ u, rest = run ++ ('<' :: u) :=
            ⟨rest.drop (run ++ ['<']).length, by
              simpa [List.append_assoc] using leadsWith_eq_append hc2⟩
          subst hrest
          have hlen2 : ('>' :: (run ++ ['<'])).length = run.length + 1 + 1 := by simp
          have hdropu : ('>' :: (run ++ ('<' :: u))).drop
              (('>' :: (run ++ ['<'])).length) = u := by
            rw [hlen2, List.drop_succ_cons, drop_append_succ]
          rw [replaceAll_cons_pos _ (by simp) hlw, hdropu]
          rw [show (['>', '<'] ++ replaceAll ('>' :: (run ++ ['<'])) ['>', '<'] u) =
            '>' :: ('<' :: replaceAll ('>' :: (run ++ ['<'])) ['>', '<'] u) from rfl]
          have hu : u.length ≤ n := by
            simp only [List.length_cons, List.length_append] at ht
            omega
          have hcond1 : ('<' :: replaceAll ('>' :: (run ++ ['<'])) ['>', '<']
              u).takeWhile isPyWs = [] :=
            List.takeWhile_cons_of_neg (by decide)
          have hng : ¬(('<' :: replaceAll ('>' :: (run ++ ['<'])) ['>', '<']
                u).takeWhile isPyWs ≠ [] ∧
              (('<' :: replaceAll ('>' :: (run ++ ['<'])) ['>', '<'] u).drop
                (('<' :: replaceAll ('>' :: (run ++ ['<'])) ['>', '<'] u).takeWhile
                  isPyWs).length).head? = some '<') := by
            rw [hcond1]
            simp
          rw [compact_ws_gt_neg hng, compact_ws_cons_lt, ih u hu]
          have htw : (run ++ ('<' :: u)).takeWhile isPyWs = run :=
            takeWhile_append_not isPyWs u hws (by decide)
          have hdw : (run ++ ('<' :: u)).drop
              ((run ++ ('<' :: u)).takeWhile isPyWs).length = '<' :: u := by
            rw [htw, List.drop_left]
          have h1p : (run ++ ('<' :: u)).takeWhile isPyWs ≠ [] := by
            rw [htw]; exact hne
          have h2p : ((run ++ ('<' :: u)).drop
              ((run ++ ('<' :: u)).takeWhile isPyWs).length).head? = some '<' := by
            rw [hdw]
            rfl
          rw [compact_ws_gt_pos h1p h2p, hdw, compact_ws_cons_lt]
        · have hneg : ¬(('>' :: (run ++ ['<'])) ≠ [] ∧
              leadsWith ('>' :: (run ++ ['<'])) (c :: rest) = true) :=
            fun hh => hlw hh.2
          rw [replaceAll_cons_neg _ hneg]
          have hrest_le : rest.length ≤ n := by
            simp only [List.length_cons] at ht; omega
          by_cases hcgt : c = '>'
          · subst hcgt
            by_cases hcond : rest.takeWhile isPyWs ≠ [] ∧
                (rest.drop (rest.takeWhile isPyWs).length).head? = some '<'
            · obtain ⟨run0, u, hr0ne, hr0ws, hteq⟩ := cond_decomp hcond.1 hcond.2
              subst hteq
              have hskip : replaceAll ('>' :: (run ++ ['<'])) ['>', '<']
                  (run0 ++ ('<' :: u)) =
                  run0 ++ ('<' :: replaceAll ('>' :: (run ++ ['<'])) ['>', '<'] u) := by
                rw [replaceAll_skip_front _ run0
                  (fun x hx => isPyWs_ne_gt (hr0ws x hx)) ('<' :: u),
                  replaceAll_cons_lt]
              rw [hskip]
              have htwL : (run0 ++ ('<' :: replaceAll ('>' :: (run ++ ['<']))
                  ['>', '<'] u)).takeWhile isPyWs = run0 :=
                takeWhile_append_not isPyWs _ hr0ws (by decide)
              have hdwL : (run0 ++ ('<' :: replaceAll ('>' :: (run ++ ['<']))
                  ['>', '<'] u)).drop
                  ((run0 ++ ('<' :: replaceAll ('>' :: (run ++ ['<']))
                    ['>', '<'] u)).takeWhile isPyWs).length =
                  '<' :: replaceAll ('>' :: (run ++ ['<'])) ['>', '<'] u := by
                rw [htwL, List.drop_left]
              have h1L : (run0 ++ ('<' :: replaceAll ('>' :: (run ++ ['<']))
                  ['>', '<'] u)).takeWhile isPyWs ≠ [] := by
                rw [htwL]; exact hr0ne
              have h2L : ((run0 ++ ('<' :: replaceAll ('>' :: (run ++ ['<']))
                  ['>', '<'] u)).drop
                  ((run0 ++ ('<' :: replaceAll ('>' :: (run ++ ['<']))
                    ['>', '<'] u)).takeWhile isPyWs).length).head? = some '<' := by
                rw [hdwL]
                rfl
              rw [compact_ws_gt_pos h1L h2L, hdwL, compact_ws_cons_lt]
              have huLen : u.length ≤ n := by
                simp only [List.length_cons, List.length_append] at ht
                omega
              rw [ih u huLen]
              have htwR : (run0 ++ ('<' :: u)).takeWhile isPyWs = run0 :=
                takeWhile_append_not isPyWs u hr0ws (by decide)
              have hdwR : (run0 ++ ('<' :: u)).drop
                  ((run0 ++ ('<' :: u)).takeWhile isPyWs).length = '<' :: u := by
                rw [htwR, List.drop_left]
              have h1R : (run0 ++ ('<' :: u)).takeWhile isPyWs ≠ [] := by
                rw [htwR]; exact hr0ne
              have h2R : ((run0 ++ ('<' :: u)).drop
                  ((run0 ++ ('<' :: u)).takeWhile isPyWs).length).head? = some '<' := by
                rw [hdwR]
                rfl
              rw [compact_ws_gt_pos h1R h2R, hdwR, compact_ws_cons_lt]
            · have hsplit : rest = rest.takeWhile isPyWs ++ rest.dropWhile isPyWs :=
                (List.takeWhile_append_dropWhile isPyWs rest).symm
              have hws0 : ∀ x ∈ rest.takeWhile isPyWs, isPyWs x = true :=
                fun x hx => mem_takeWhile_holds isPyWs rest x hx
              have hcondR : ¬((replaceAll ('>' :: (run ++ ['<'])) ['>', '<']
                    rest).takeWhile isPyWs ≠ [] ∧
                  ((replaceAll ('>' :: (run ++ ['<'])) ['>', '<'] rest).drop
                    ((replaceAll ('>' :: (run ++ ['<'])) ['>', '<'] rest).takeWhile
                      isPyWs).length).head? = some '<') := by
                cases hdw2 : rest.dropWhile isPyWs with
                | nil =>
                  have hre : rest = rest.takeWhile isPyWs := by
                    nth_rewrite 1 [hsplit]
                    rw [hdw2, List.append_nil]
                  have hallws : ∀ x ∈ rest, isPyWs x = true := by
                    intro x hx
                    rw [hre] at hx
                    exact mem_takeWhile_holds isPyWs rest x hx
                  have hrw : replaceAll ('>' :: (run ++ ['<'])) ['>', '<'] rest =
                      rest := replaceAll_all_ws _ rest hallws
                  rw [hrw]
                  exact hcond
                | cons d u2 =>
                  have hdns : isPyWs d = false := dropWhile_head_not isPyWs hdw2
                  have hre : rest = rest.takeWhile isPyWs ++ (d :: u2) := by
                    nth_rewrite 1 [hsplit]
                    rw [hdw2]
                  have hRr : replaceAll ('>' :: (run ++ ['<'])) ['>', '<'] rest =
                      rest.takeWhile isPyWs ++
                        replaceAll ('>' :: (run ++ ['<'])) ['>', '<'] (d :: u2) := by
                    nth_rewrite 1 [hre]
                    exact replaceAll_skip_front _ _
                      (fun x hx => isPyWs_ne_gt (hws0 x hx)) _
                  have hdr : rest.drop ((rest.takeWhile isPyWs).length) = d :: u2 := by
                    rw [drop_length_takeWhile, hdw2]
                  by_cases hlw2 : leadsWith ('>' :: (run ++ ['<'])) (d :: u2) = true
                  · have hRd : replaceAll ('>' :: (run ++ ['<'])) ['>', '<']
                        (d :: u2) =
                        ['>', '<'] ++ replaceAll ('>' :: (run ++ ['<'])) ['>', '<']
                          ((d :: u2).drop ('>' :: (run ++ ['<'])).length) :=
                      replaceAll_cons_pos _ (by simp) hlw2
                    have htwRr : (replaceAll ('>' :: (run ++ ['<'])) ['>', '<']
                        rest).takeWhile isPyWs = rest.takeWhile isPyWs := by
                      rw [hRr, hRd]
                      exact takeWhile_append_not isPyWs _ hws0 (by decide)
                    intro hcontra
                    have hhd : ((replaceAll ('>' :: (run ++ ['<'])) ['>', '<']
                        rest).drop
                        ((replaceAll ('>' :: (run ++ ['<'])) ['>', '<']
                          rest).takeWhile isPyWs).length).head? = some '>' := by
                      rw [htwRr, hRr, hRd, List.drop_left]
                      rfl
                    rw [hcontra.2] at hhd
                    exact absurd hhd (by simp)
                  · have hRd : replaceAll ('>' :: (run ++ ['<'])) ['>', '<']
                        (d :: u2) =
                        d :: replaceAll ('>' :: (run ++ ['<'])) ['>', '<'] u2 :=
                      replaceAll_cons_neg _ (fun hh => hlw2 hh.2)
                    by_cases hdlt : d = '<'
                    · have hr0 : rest.takeWhile isPyWs = [] := by
                        by_contra hr0ne
                        refine hcond ⟨hr0ne, ?_⟩
                        rw [hdr, hdlt]
                        rfl
                      intro hcontra
                      apply hcontra.1
                      rw [hRr, hr0, List.nil_append, hRd, hdlt]
                      exact List.takeWhile_cons_of_neg (by decide)
                    · intro hcontra
                      have htwRr : (replaceAll ('>' :: (run ++ ['<'])) ['>', '<']
                          rest).takeWhile isPyWs = rest.takeWhile isPyWs := by
                        rw [hRr, hRd]
                        exact takeWhile_append_not isPyWs _ hws0 hdns
                      have hhd : ((replaceAll ('>' :: (run ++ ['<'])) ['>', '<']
                          rest).drop
                          ((replaceAll ('>' :: (run ++ ['<'])) ['>', '<']
                            rest).takeWhile isPyWs).length).head? = some d := by
                        rw [htwRr, hRr, hRd, List.drop_left]
                        rfl
                      rw [hcontra.2] at hhd
                      have hdeq : d = '<' := by
                        simpa using hhd.symm
                      exact hdlt hdeq
              rw [compact_ws_gt_neg hcondR, compact_ws_gt_neg hcond, ih rest hrest_le]
          · rw [compact_ws_cons_ne _ hcgt, compact_ws_cons_ne _ hcgt, ih rest hrest_le]
  exact key t.length t le_rfl

/-- A document without any match-shaped substring is a fixed point of the
one-pass compaction. -/
theorem no_occ_compact_id :
    ∀ t, (∀ v, IsWsMatch v → containsSub v t = false) → compact_white_space t = t := by
  have key : ∀ n t, t.length ≤ n →
      (∀ v, IsWsMatch v → containsSub v t = false) → compact_white_space t = t := by
    intro n
    induction n with
    | zero =>
      intro t ht _
      have ht0 : t = [] := List.eq_nil_of_length_eq_zero (Nat.le_zero.mp ht)
      subst ht0
      rfl
    | succ n ih =>
      intro t ht h
      cases t with
      | nil => rfl
      | cons c t2 =>
        have hd : ∀ v, IsWsMatch v → containsSub v t2 = false := by
          intro v hv
          cases hcc : containsSub v t2 with
          | false => rfl
          | true =>
            have hup : containsSub v (c :: t2) = true :=
              containsSub_cons_of_containsSub hcc
            rw [h v hv] at hup
            exact absurd hup (by simp)
        by_cases hcgt : c = '>'
        · subst hcgt
          by_cases hcond : t2.takeWhile isPyWs ≠ [] ∧
              (t2.drop (t2.takeWhile isPyWs).length).head? = some '<'
          · exfalso
            obtain ⟨run0, u, hr0ne, hr0ws, hteq⟩ := cond_decomp hcond.1 hcond.2
            have hocc : containsSub ('>' :: (run0 ++ ['<'])) ('>' :: t2) = true := by
              refine containsSub_of_substr_at (i := 0) (by simp) ?_
              show leadsWith ('>' :: (run0 ++ ['<'])) (('>' :: t2).drop 0) = true
              rw [List.drop_zero, hteq]
              have hla : leadsWith (run0 ++ ['<']) (run0 ++ ('<' :: u)) = true := by
                have h2 := leadsWith_append_self (run0 ++ ['<']) u
                simpa [List.append_assoc] using h2
              simp [leadsWith, hla]
            rw [h _ ⟨run0, hr0ne, hr0ws, rfl⟩] at hocc
            exact absurd hocc (by simp)
          · rw [compact_ws_gt_neg hcond,
              ih t2 (by simp only [List.length_cons] at ht; omega) hd]
        · rw [compact_ws_cons_ne t2 hcgt,
            ih t2 (by simp only [List.length_cons] at ht; omega) hd]
  intro t h
  exact key t.length t le_rfl h

theorem fold_replace_compact :
    ∀ (L : List (List Char)), (∀ w ∈ L, IsWsMatch w) → ∀ t,
      compact_white_space
          (L.foldl (fun t w => replaceAll w ((r"><").toList) t) t) =
        compact_white_space t := by
  intro L
  induction L with
  | nil => intro _ t; rfl
  | cons w L2 ih =>
    intro h t
    rw [List.foldl_cons, ih (fun x hx => h x (by simp [hx])) _,
      compact_replaceAll_ws (h w (by simp)) t]

theorem fold_replace_no_occ :
    ∀ (L : List (List Char)), (∀ w ∈ L, IsWsMatch w) → ∀ t,
      (∀ v, IsWsMatch v → containsSub v t = true → v ∈ L) →
      ∀ v, IsWsMatch v →
        containsSub v (L.foldl (fun t w => replaceAll w ((r"><").toList) t) t) =
          false := by
  intro L
  induction L with
  | nil =>
    intro _ t h v hv
    cases hc : containsSub v t with
    | false => simpa [List.foldl_nil] using hc
    | true => exact absurd (h v hv hc) (by simp)
  | cons w L2 ih =>
    intro hsh t h v hv
    rw [List.foldl_cons]
    refine ih (fun x hx => hsh x (by simp [hx])) _ ?_ v hv
    intro x hx hocc
    obtain ⟨hoccT, hne⟩ := replaceAll_ws_occ (hsh w (by simp)) hx t hocc
    rcases List.mem_cons.mp (h x hx hoccT) with h1 | h2
    · exact absurd h1 hne
    · exact h2

/-- The findall/replace loop of the scripts computes exactly the one-pass
whitespace compaction, independently of the iteration order over the match
set: each replacement preserves the compaction, and the final string, free of
match-shaped substrings, is a fixed point of it. -/
theorem white_space_loop_eq_compact (s : List Char) :
    white_space_loop s = compact_white_space s := by
  have hshapes : ∀ w ∈ (wsFindall s).dedup, IsWsMatch w :=
    fun w hw => wsFindall_shape s w (List.mem_dedup.mp hw)
  have hcomplete : ∀ v, IsWsMatch v → containsSub v s = true →
      v ∈ (wsFindall s).dedup :=
    fun v hv hc => List.mem_dedup.mpr (occ_mem_findall hv s hc)
  have hno : ∀ v, IsWsMatch v → containsSub v (white_space_loop s) = false :=
    fun v hv => fold_replace_no_occ _ hshapes s hcomplete v hv
  have hid : compact_white_space (white_space_loop s) = white_space_loop s :=
    no_occ_compact_id _ hno
  calc white_space_loop s
      = compact_white_space (white_space_loop s) := hid.symm
    _ = compact_white_space s := fold_replace_compact _ hshapes s

/-! Support lemmas for the alternation and literal fragments of the
capture-as-pattern model. -/

theorem splitPipe_no_pipe : ∀ {l : List Char}, '|' ∉ l → splitPipe l = [l] := by
  intro l
  induction l with
  | nil => intro _; rfl
  | cons c rest ih =>
    intro h
    have hc : ¬(c = '|') := fun hcc => h (by simp [hcc])
    have hr : splitPipe rest = [rest] := ih (fun hm => h (by simp [hm]))
    simp only [splitPipe, if_neg hc, hr]

theorem replaceAltsF_single {pat : List Char} (hp : pat ≠ []) (repl : List Char) :
    ∀ fuel s, replaceAltsF fuel [pat] repl s = replaceAllF fuel pat repl s := by
  intro fuel
  induction fuel with
  | zero => intro s; rfl
  | succ f ih =>
    intro s
    cases hlw : leadsWith pat s with
    | true =>
      have hfind : [pat].find? (fun a => leadsWith a s) = some pat :=
        List.find?_cons_of_pos _ hlw
      cases s with
      | nil =>
        cases pat with
        | nil => exact absurd rfl hp
        | cons a l => simp [leadsWith] at hlw
      | cons c rest =>
        have hie : pat.isEmpty = false := by
          cases pat with
          | nil => exact absurd rfl hp
          | cons a l => rfl
        simp only [replaceAltsF, hfind, hie, Bool.false_eq_true, if_false,
          replaceAllF, if_pos (And.intro hp hlw)]
        rw [ih]
    | false =>
      have hfind : [pat].find? (fun a => leadsWith a s) = none := by
        rw [List.find?_cons_of_neg _ (by simp [hlw])]
        rfl
      cases s with
      | nil => simp [replaceAltsF, hfind, replaceAllF]
      | cons c rest =>
        have hneg : ¬(pat ≠ [] ∧ leadsWith pat (c :: rest) = true) := by
          rintro ⟨-, h2⟩
          rw [hlw] at h2
          exact absurd h2 (by simp)
        simp only [replaceAltsF, hfind, replaceAllF, if_neg hneg]
        rw [ih]

theorem replaceAlts_single {pat : List Char} (hp : pat ≠ []) (repl s : List Char) :
    replaceAlts [pat] repl s = replaceAll pat repl s :=
  replaceAltsF_single hp repl (s.length + 1) s

theorem digitChar_not_meta {d : Nat} (hd : d < 10) :
    regexMeta (digitChar d) = false := by
  interval_cases d <;> decide

theorem natDigitsF_digit :
    ∀ (fuel n : Nat), ∀ c ∈ natDigitsF fuel n, ∃ d, d < 10 ∧ c = digitChar d := by
  intro fuel
  induction fuel with
  | zero => intro n c hc; simp [natDigitsF] at hc
  | succ f ih =>
    intro n c hc
    simp only [natDigitsF] at hc
    by_cases hn : n < 10
    · rw [if_pos hn] at hc
      simp only [List.mem_singleton] at hc
      exact ⟨n, hn, hc⟩
    · rw [if_neg hn] at hc
      rcases List.mem_append.mp hc with h1 | h2
      · exact ih _ c h1
      · simp only [List.mem_singleton] at h2
        exact ⟨n % 10, Nat.mod_lt _ (by omega), h2⟩

/-- The canonical identifier attribute is free of regex metacharacters, so
handing it to `re.sub` as a pattern performs a literal replacement. -/
theorem canonical_id_regexLiteral (gid : Nat) :
    regexLiteral (canonical_id gid) = true := by
  unfold canonical_id regexLiteral
  simp only [List.all_append, Bool.and_eq_true]
  refine ⟨⟨⟨?_, ?_⟩, ?_⟩, ?_⟩
  · decide
  · decide
  · rw [List.all_eq_true]
    intro c hc
    obtain ⟨d, hd, rfl⟩ := natDigitsF_digit (gid + 1) gid c hc
    simp [digitChar_not_meta hd]
  · decide

/-! The claims. -/

/-- C1: for every input sequence of resolved `(glyphId, document)` bindings,
the record list assembled for the container writer (last-write-wins dictionary
accumulation followed by key-sorted extraction, exactly what
`process_font_file` hands to the writer — see `process_font_file_table`) is
sorted strictly ascending by glyph id and contains no two records with the
same glyph id. -/
theorem spec_C1 (bindings : List (Nat × List Char)) :
    List.Sorted (· < ·) ((table_of_bindings bindings).map SVGRecord.startGlyphID) ∧
    ((table_of_bindings bindings).map SVGRecord.startGlyphID).Nodup := by
  have hkeys : ((bindings.foldl (fun d b => dinsert d b.1 b.2) []).map Prod.fst).Nodup :=
    fold_dinsert_keys_nodup bindings [] (by simp)
  have hmap : (table_of_bindings bindings).map SVGRecord.startGlyphID =
      List.insertionSort (· ≤ ·)
        ((bindings.foldl (fun d b => dinsert d b.1 b.2) []).map Prod.fst) :=
    svg_docs_list_gids _
  have hnodup : (List.insertionSort (· ≤ ·)
      ((bindings.foldl (fun d b => dinsert d b.1 b.2) []).map Prod.fst)).Nodup :=
    (List.perm_insertionSort _ _).nodup_iff.mpr hkeys
  have hsorted := sorted_lt_of_sorted_le_nodup (List.sorted_insertionSort _ _) hnodup
  rw [hmap]
  exact ⟨hsorted, hnodup⟩

/-- C2 (counterexample): the frozen claim fails on the code.  Two validated
candidates resolving to glyph id 7, the later one with content
`<svg m id="a(b">x</svg>`: `set_id_value` hands the captured `id="a(b"` to
`re.sub` as a pattern, whose compilation raises `re.error` (an unmatched
`(` with no backslash or class in the capture); the exception is uncaught,
the process dies and no record list is handed to the writer — instead of
the claimed one-record last-write-wins table. -/
theorem spec_C2_cex :
    validate_svg_files
      [⟨(r"A.svg").toList, (r"<svg a>x</svg>").toList⟩,
       ⟨(r"B.svg").toList, (r#"<svg m id="a(b">x</svg>"#).toList⟩] =
      [⟨(r"A.svg").toList, (r"<svg a>x</svg>").toList⟩,
       ⟨(r"B.svg").toList, (r#"<svg m id="a(b">x</svg>"#).toList⟩] ∧
    (fun n => if n == (r"A").toList then some 7 else
      if n == (r"B").toList then some 7 else none)
      (get_glyph_name_from_file_name ((r"A.svg").toList)) = some 7 ∧
    (fun n => if n == (r"A").toList then some 7 else
      if n == (r"B").toList then some 7 else none)
      (get_glyph_name_from_file_name ((r"B.svg").toList)) = some 7 ∧
    find_id_value ((r#"<svg m id="a(b">x</svg>"#).toList) =
      some ((r#"id="a(b""#).toList) ∧
    unbalanced_parens ((r#"id="a(b""#).toList) = true ∧
    process_font_file ((r"F.otf").toList)
      (fun n => if n == (r"A").toList then some 7 else
        if n == (r"B").toList then some 7 else none)
      [⟨(r"A.svg").toList, (r"<svg a>x</svg>").toList⟩,
       ⟨(r"B.svg").toList, (r#"<svg m id="a(b">x</svg>"#).toList⟩] =
      ([], RunOutcome.error) ∧
    RunOutcome.error ≠ RunOutcome.written
      [⟨(r#"<svg id="glyph7" a>x</svg>"#).toList, 7, 7⟩] :=
  ⟨by decide, by decide, by decide, by decide, by decide, by decide, by decide⟩

/-- C2 (amended): when two validated candidate files both resolve to the same
glyph id and both normalize without leaving the modelled fragment (their
identifier captures, if any, are free of regex metacharacters, so the
unescaped `re.sub` behaves as literal replacement), the assembled table holds
exactly one record for that id, its document is the normalized content of the
later-processed file (last-write-wins), and the earlier file's normalized
content (when different) appears nowhere in the table.  Outside that domain
the run can die in `re.sub` with no table at all (see the
counterexample). -/
theorem spec_C2 (fp : List Char) (g : List Char → Option Nat) (fA fB : FileEnt)
    (gid : Nat) (docA docB : List Char)
    (h1 : g (get_glyph_name_from_file_name fA.name) = some gid)
    (h2 : g (get_glyph_name_from_file_name fB.name) = some gid)
    (hA : svg_item_pipeline fA.content gid = PyResult.ok docA)
    (hB : svg_item_pipeline fB.content gid = PyResult.ok docB) :
    process_font_file fp g [fA, fB] =
      ([], RunOutcome.written [⟨docB, gid, gid⟩]) ∧
    (docA ≠ docB →
      ∀ recs, (process_font_file fp g [fA, fB]).2 = RunOutcome.written recs →
        ∀ r ∈ recs, r.doc ≠ docA) := by
  have hmain : process_font_file fp g [fA, fB] =
      ([], RunOutcome.written [⟨docB, gid, gid⟩]) := by
    unfold process_font_file
    simp [ploop, h1, h2, hA, hB, dinsert, svg_docs_list, dlookupD, dlookup,
      List.insertionSort, List.orderedInsert]
  refine ⟨hmain, fun hne recs hrecs r hr => ?_⟩
  rw [hmain] at hrecs
  simp only [RunOutcome.written.injEq] at hrecs
  rw [← hrecs] at hr
  simp only [List.mem_singleton] at hr
  subst hr
  exact fun hEq => hne hEq.symm

theorem spec_C2_witness :
    process_font_file ((r"F.otf").toList)
        (fun n => if n == (r"A").toList then some 7 else
          if n == (r"B").toList then some 7 else none)
        [⟨(r"A.svg").toList, (r"<svg a>x</svg>").toList⟩,
         ⟨(r"B.svg").toList, (r"<svg b>y</svg>").toList⟩] =
      ([], RunOutcome.written [⟨(r#"<svg id="glyph7" b>y</svg>"#).toList, 7, 7⟩]) ∧
    ((r#"<svg id="glyph7" a>x</svg>"#).toList ≠
        ((r#"<svg id="glyph7" b>y</svg>"#).toList : List Char) →
      ∀ recs, (process_font_file ((r"F.otf").toList)
          (fun n => if n == (r"A").toList then some 7 else
            if n == (r"B").toList then some 7 else none)
          [⟨(r"A.svg").toList, (r"<svg a>x</svg>").toList⟩,
           ⟨(r"B.svg").toList, (r"<svg b>y</svg>").toList⟩]).2 =
          RunOutcome.written recs →
        ∀ r ∈ recs, r.doc ≠ (r#"<svg id="glyph7" a>x</svg>"#).toList) :=
  spec_C2 _ _ _ _ 7 _ _ (by decide) (by decide) (by decide) (by decide)

/-- C3: the spec expects the one-file directory `A.svg` with content
`<svg><path/></svg>` (glyph `A` at id 5) to yield a one-record table whose
document contains `id="glyph5"` with range `(5, 5)`.  The code does not: its
validator pattern `<svg.+?>.+?</svg>` demands at least one character between
`<svg` and `>` and between `>` and `</svg>`, so this file — although it
plainly contains an `<svg>` element, which is all the validator's own
docstring claims to check — is rejected and the run aborts ("No SVG files
were found") with no table at all.  This theorem evaluates the code at the
failing input. -/
theorem spec_C3 :
    containsSub ((r"<svg>").toList) ((r"<svg><path/></svg>").toList) = true ∧
    containsSub ((r"</svg>").toList) ((r"<svg><path/></svg>").toList) = true ∧
    validate_svg_files
      [⟨(r"A.svg").toList, (r"<svg><path/></svg>").toList⟩] = [] ∧
    runPipelineV1 ((r"F.otf").toList)
      (fun n => if n == (r"A").toList then some 5 else none)
      [⟨(r"A.svg").toList, (r"<svg><path/></svg>").toList⟩] =
      RunOutcome.noSvgFiles :=
  ⟨by decide, by decide, by decide, by decide⟩

/-- C4 (counterexample): identifier injection is not idempotent on every
document text.  On `<svg>` the first application injects `id="glyph5"`, but
the search pattern cannot re-find it (no `>` stands two characters after the
closing quote), so a second application injects again. -/
theorem spec_C4_cex :
    set_id_value ((r"<svg>").toList) 5 =
      PyResult.ok ((r#"<svg id="glyph5">"#).toList) ∧
    set_id_value ((r#"<svg id="glyph5">"#).toList) 5 =
      PyResult.ok ((r#"<svg id="glyph5" id="glyph5">"#).toList) ∧
    ((r#"<svg id="glyph5" id="glyph5">"#).toList : List Char) ≠
      (r#"<svg id="glyph5">"#).toList :=
  ⟨by decide, by decide, by decide⟩

/-- C4 (amended): for every document whose single application of
`set_id_value` stays in the modelled literal fragment and on whose result the
identifier search finds exactly the canonical `id="glyph<gid>"` capture,
applying `set_id_value` again returns the same result — the canonical
attribute is metacharacter-free, so the second unescaped `re.sub` is a
literal self-replacement.  When the search does not re-find the canonical
capture the second application can inject a duplicate attribute (see the
counterexample); and on captures with regex metacharacters already the first
application raises `re.error` or leaves the modelled fragment. -/
theorem spec_C4 (s t : List Char) (gid : Nat)
    (h1 : set_id_value s gid = PyResult.ok t)
    (h2 : find_id_value t = some (canonical_id gid)) :
    set_id_value t gid = set_id_value s gid := by
  rw [h1]
  simp only [set_id_value, h2]
  rw [if_pos (canonical_id_regexLiteral gid), replaceAll_self]

theorem spec_C4_witness :
    set_id_value ((r#"<svg id="x">y</svg>"#).toList) 7 =
      PyResult.ok ((r#"<svg id="glyph7">y</svg>"#).toList) ∧
    find_id_value ((r#"<svg id="glyph7">y</svg>"#).toList) =
      some (canonical_id 7) ∧
    set_id_value ((r#"<svg id="glyph7">y</svg>"#).toList) 7 =
      set_id_value ((r#"<svg id="x">y</svg>"#).toList) 7 :=
  ⟨by decide, by decide, spec_C4 _ _ 7 (by decide) (by decide)⟩

/-- C5: the whitespace-compaction transform — the findall/replace loop
`white_space_loop`, which `white_space_loop_eq_compact` proves equal to the
single pass `compact_white_space` — is idempotent, and its output differs
from its input only by the removal of whitespace runs standing directly
between a `>` and the next `<` (every other character is kept unchanged and
in order, as expressed by `OnlyWsRemoved`). -/
theorem spec_C5 (s : List Char) :
    white_space_loop (white_space_loop s) = white_space_loop s ∧
    OnlyWsRemoved s (white_space_loop s) := by
  rw [white_space_loop_eq_compact, white_space_loop_eq_compact]
  exact ⟨compact_ws_idem s, only_ws_removed_compact s⟩

/-- C6 (counterexample): the frozen claim fails on the code.  The quote class
`["|']` of `view_box_regex` admits `|`, and on `<svg view_box=|15" a>` the
captured `view_box=|15"` is compiled by `re.sub` as the alternation
`view_box=` | `15"`: the constant is substituted for each alternative
occurrence, leaving `<svg view_box="0 1000 1000 1000"|view_box="0 1000 1000
1000" a>` instead of replacing the attribute's value with exactly one copy of
the constant. -/
theorem spec_C6_cex :
    find_view_box ((r#"<svg view_box=|15" a>"#).toList) =
      some ((r#"view_box=|15""#).toList) ∧
    fix_view_box ((r#"<svg view_box=|15" a>"#).toList) =
      (r#"<svg view_box="0 1000 1000 1000"|view_box="0 1000 1000 1000" a>"#).toList ∧
    ((r#"<svg view_box="0 1000 1000 1000"|view_box="0 1000 1000 1000" a>"#).toList :
        List Char) ≠
      (r#"<svg view_box="0 1000 1000 1000" a>"#).toList :=
  ⟨by decide, by decide, by decide⟩

/-- C6 (amended): if the bounds-attribute pattern is found and the captured
text is quoted with `"` or `'` on both sides — so that it contains no `|`,
its only possible regex metacharacter — `fix_view_box` replaces the captured
text by exactly `view_box="0 1000 1000 1000"` regardless of the original
values: the capture is a genuine substring of the input and the canonical
constant a substring of the output.  If the pattern is absent the document is
returned unchanged.  When a `|` serves as a quote, the capture compiles as an
alternation and the constant is substituted per regex-alternation semantics
instead (see the counterexample). -/
theorem spec_C6 (s : List Char) :
    (find_view_box s = none → fix_view_box s = s) ∧
    (∀ cap, find_view_box s = some cap → '|' ∉ cap →
      containsSub cap s = true ∧
      fix_view_box s = replaceAll cap fixedViewBoxLit s ∧
      containsSub fixedViewBoxLit (fix_view_box s) = true) := by
  constructor
  · intro h
    simp only [fix_view_box, h]
  · intro cap hcap hpipe
    obtain ⟨hne, hsub⟩ := find_view_box_some hcap
    have heq : fix_view_box s = replaceAll cap fixedViewBoxLit s := by
      simp only [fix_view_box, hcap]
      rw [splitPipe_no_pipe hpipe, replaceAlts_single hne]
    refine ⟨hsub, heq, ?_⟩
    rw [heq]
    exact replaceAll_contains_repl hne s hsub

theorem spec_C6_witness :
    containsSub ((r#"view_box="12, 34""#).toList)
      ((r#"<svg view_box="12, 34" x>"#).toList) = true ∧
    fix_view_box ((r#"<svg view_box="12, 34" x>"#).toList) =
      replaceAll ((r#"view_box="12, 34""#).toList) fixedViewBoxLit
        ((r#"<svg view_box="12, 34" x>"#).toList) ∧
    containsSub fixedViewBoxLit
      (fix_view_box ((r#"<svg view_box="12, 34" x>"#).toList)) = true :=
  (spec_C6 _).2 _ (by decide) (by decide)

/-- C7: a candidate whose base name is missing from the font produces a
diagnostic naming the glyph and the font file, is dropped, and the remaining
candidates are processed exactly as if it were absent: the run's outcome
equals the outcome on the candidate list without it (unconditionally — if
some other candidate kills the run, both runs die identically), and the miss
is fatal exactly when the remaining candidates alone leave the table empty.
The diagnostic reaches the output provided the candidates processed before
the miss stay in the modelled fragment (an earlier uncaught `re.error` would
kill the run before the miss is reached). -/
theorem spec_C7 (fp : List Char) (g : List Char → Option Nat) (bad : FileEnt)
    (xs ys : List FileEnt)
    (hbad : g (get_glyph_name_from_file_name bad.name) = none)
    (hxs : ∀ f ∈ xs, file_clean g f = true) :
    (process_font_file fp g (xs ++ bad :: ys)).2 =
      (process_font_file fp g (xs ++ ys)).2 ∧
    err_missing_glyph (get_glyph_name_from_file_name bad.name) (base_name fp) ∈
      (process_font_file fp g (xs ++ bad :: ys)).1 ∧
    ((process_font_file fp g (xs ++ bad :: ys)).2 = RunOutcome.noArtwork ↔
      (process_font_file fp g (xs ++ ys)).2 = RunOutcome.noArtwork) := by
  have houtcome : (process_font_file fp g (xs ++ bad :: ys)).2 =
      (process_font_file fp g (xs ++ ys)).2 := by
    have h2 := ploop_skip_bad (base_name fp) g bad hbad xs ys [] []
    unfold process_font_file
    rcases hp1 : ploop (base_name fp) g (xs ++ bad :: ys) [] [] with ⟨d1, r1⟩
    rcases hp2 : ploop (base_name fp) g (xs ++ ys) [] [] with ⟨d2, r2⟩
    rw [hp1, hp2] at h2
    simp only at h2
    subst h2
    cases r1 with
    | ok dict => by_cases hd : dict.isEmpty <;> simp [hd]
    | error => rfl
    | unmodelled => rfl
  refine ⟨houtcome, ?_, by rw [houtcome]⟩
  obtain ⟨dict', hd⟩ := ploop_clean_front (base_name fp) g xs hxs (bad :: ys) [] []
  have hmem : err_missing_glyph (get_glyph_name_from_file_name bad.name)
      (base_name fp) ∈ (ploop (base_name fp) g (xs ++ bad :: ys) [] []).1 := by
    rw [hd]
    simp only [ploop, hbad]
    rw [ploop_dgs (base_name fp) g ys]
    simp
  unfold process_font_file
  rcases hp : ploop (base_name fp) g (xs ++ bad :: ys) [] [] with ⟨d1, r1⟩
  rw [hp] at hmem
  cases r1 with
  | ok dict =>
    by_cases hdi : dict.isEmpty
    · simp [hdi]
      left
      exact hmem
    · simp [hdi]
      exact hmem
  | error => exact hmem
  | unmodelled => exact hmem

theorem spec_C7_witness :
    (process_font_file ((r"F.otf").toList)
        (fun n => if n == (r"A").toList then some 1 else none)
        [⟨(r"A.svg").toList, (r"<svg a>x</svg>").toList⟩,
         ⟨(r"B.svg").toList, (r"<svg b>y</svg>").toList⟩]).2 =
      (process_font_file ((r"F.otf").toList)
        (fun n => if n == (r"A").toList then some 1 else none)
        [⟨(r"A.svg").toList, (r"<svg a>x</svg>").toList⟩]).2 ∧
    err_missing_glyph
        (get_glyph_name_from_file_name ((r"B.svg").toList))
        (base_name ((r"F.otf").toList)) ∈
      (process_font_file ((r"F.otf").toList)
        (fun n => if n == (r"A").toList then some 1 else none)
        [⟨(r"A.svg").toList, (r"<svg a>x</svg>").toList⟩,
         ⟨(r"B.svg").toList, (r"<svg b>y</svg>").toList⟩]).1 ∧
    ((process_font_file ((r"F.otf").toList)
        (fun n => if n == (r"A").toList then some 1 else none)
        [⟨(r"A.svg").toList, (r"<svg a>x</svg>").toList⟩,
         ⟨(r"B.svg").toList, (r"<svg b>y</svg>").toList⟩]).2 = RunOutcome.noArtwork ↔
      (process_font_file ((r"F.otf").toList)
        (fun n => if n == (r"A").toList then some 1 else none)
        [⟨(r"A.svg").toList, (r"<svg a>x</svg>").toList⟩]).2 = RunOutcome.noArtwork) :=
  spec_C7 _ _ ⟨(r"B.svg").toList, (r"<svg b>y</svg>").toList⟩
    [⟨(r"A.svg").toList, (r"<svg a>x</svg>").toList⟩] [] (by decide) (by decide)

/-- C8: when no candidate produces a record — none discovered, none surviving
validation, or none resolving to a glyph — both run variants end in a clean
fatal state with nothing handed to the container writer and the font file
left untouched: `noSvgFiles` when validation leaves no candidates, otherwise
`noArtwork` from the empty dictionary (normalization never runs under the
hypothesis, so no other outcome is possible). -/
theorem spec_C8 (fp : List Char) (g : List Char → Option Nat)
    (files : List FileEnt)
    (h : ∀ f ∈ validate_svg_files files,
      g (get_glyph_name_from_file_name f.name) = none) :
    runPipelineV1 fp g files =
      (if (validate_svg_files files).isEmpty then RunOutcome.noSvgFiles
       else RunOutcome.noArtwork) ∧
    runPipelineV2 fp g files =
      (if (validate_svg_files (files.filter (fun f => endsWithSvg f.name))).isEmpty
       then RunOutcome.noSvgFiles else RunOutcome.noArtwork) := by
  have key : ∀ fs : List FileEnt,
      (∀ f ∈ validate_svg_files fs,
        g (get_glyph_name_from_file_name f.name) = none) →
      (if (validate_svg_files fs).isEmpty then RunOutcome.noSvgFiles
       else (process_font_file fp g (validate_svg_files fs)).2) =
        (if (validate_svg_files fs).isEmpty then RunOutcome.noSvgFiles
         else RunOutcome.noArtwork) := by
    intro fs hfs
    by_cases hv : (validate_svg_files fs).isEmpty
    · simp [hv]
    · simp only [hv, Bool.false_eq_true, if_false]
      unfold process_font_file
      rw [ploop_all_none (base_name fp) g _ hfs [] []]
      simp
  constructor
  · simpa [runPipelineV1] using key files h
  · refine Eq.trans (by simp [runPipelineV2])
      (key (files.filter fun f => endsWithSvg f.name) ?_)
    intro f hf
    refine h f ?_
    unfold validate_svg_files at hf ⊢
    rcases List.mem_filter.mp hf with ⟨hf1, hf2⟩
    exact List.mem_filter.mpr ⟨(List.mem_filter.mp hf1).1, hf2⟩

theorem spec_C8_witness :
    runPipelineV1 ((r"F.otf").toList) (fun _ => (none : Option Nat))
      [⟨(r"B.svg").toList, (r"<svg b>y</svg>").toList⟩] =
      (if (validate_svg_files
          [⟨(r"B.svg").toList, (r"<svg b>y</svg>").toList⟩]).isEmpty
       then RunOutcome.noSvgFiles else RunOutcome.noArtwork) ∧
    runPipelineV2 ((r"F.otf").toList) (fun _ => (none : Option Nat))
      [⟨(r"B.svg").toList, (r"<svg b>y</svg>").toList⟩] =
      (if (validate_svg_files
          ([⟨(r"B.svg").toList, (r"<svg b>y</svg>").toList⟩].filter
            (fun f => endsWithSvg f.name))).isEmpty
       then RunOutcome.noSvgFiles else RunOutcome.noArtwork) :=
  spec_C8 _ _ _ (by decide)

/-- C9 (counterexample): the two source variants are not equivalent on every
directory tree.  `addSVGtable.py` collects every file of the tree while
`add_svg_table.py` discovers only `*.svg` files, so a valid artwork file named
`A.txt` yields a one-record table under the first variant and a fatal
"no SVG files" abort under the second. -/
theorem spec_C9_cex :
    runPipelineV1 ((r"F.otf").toList)
        (fun n => if n == (r"A").toList then some 1 else none)
        [⟨(r"A.txt").toList, (r"<svg x>y</svg>").toList⟩] ≠
      runPipelineV2 ((r"F.otf").toList)
        (fun n => if n == (r"A").toList then some 1 else none)
        [⟨(r"A.txt").toList, (r"<svg x>y</svg>").toList⟩] := by
  decide

/-- C9 (amended): on directory trees in which every file name matches `*.svg`
— the only trees where the two discoverers agree — the two variants produce
identical results: same record list, same glyph ids and ranges, and success
or failure under the same conditions (a normalization `re.error` likewise
kills both variants identically). -/
theorem spec_C9 (fp : List Char) (g : List Char → Option Nat)
    (files : List FileEnt) (h : ∀ f ∈ files, endsWithSvg f.name = true) :
    runPipelineV1 fp g files = runPipelineV2 fp g files := by
  unfold runPipelineV1 runPipelineV2
  rw [List.filter_eq_self.mpr h]

theorem spec_C9_witness :
    runPipelineV1 ((r"F.otf").toList)
        (fun n => if n == (r"A").toList then some 1 else none)
        [⟨(r"A.svg").toList, (r"<svg x>y</svg>").toList⟩] =
      runPipelineV2 ((r"F.otf").toList)
        (fun n => if n == (r"A").toList then some 1 else none)
        [⟨(r"A.svg").toList, (r"<svg x>y</svg>").toList⟩] :=
  spec_C9 _ _ _ (by decide)

/-- C10 (counterexample): when no identifier is found, injection rewrites
every occurrence of `<svg`, not only the first opening tag: on
`<svg a><svg b>` both tags receive the attribute, which differs from the
claimed only-the-first-tag insertion. -/
theorem spec_C10_cex :
    set_id_value ((r"<svg a><svg b>").toList) 5 =
      PyResult.ok ((r#"<svg id="glyph5" a><svg id="glyph5" b>"#).toList) ∧
    ((r#"<svg id="glyph5" a><svg id="glyph5" b>"#).toList : List Char) ≠
      (r#"<svg id="glyph5" a><svg b>"#).toList :=
  ⟨by decide, by decide⟩

/-- C10 (amended): when the identifier search finds no match, injection
substitutes `<svg id="glyph<gid>"` for every occurrence of `<svg` (a
metacharacter-free pattern, so the substitution is exactly literal); in
particular, on documents whose only `<svg` occurrence is the root element's
opening tag, the canonical attribute is inserted immediately after that tag
name and only there, with all other text unchanged. -/
theorem spec_C10 (u v : List Char) (gid : Nat)
    (h1 : find_id_value (u ++ svgOpenLit ++ v) = none)
    (h2 : ∀ i < (u ++ svgOpenLit ++ v).length,
      substr_at (u ++ svgOpenLit ++ v) svgOpenLit i = true → i = u.length) :
    set_id_value (u ++ svgOpenLit ++ v) gid =
      PyResult.ok (u ++ injected_svg_tag gid ++ v) := by
  simp only [set_id_value, h1, PyResult.ok.injEq]
  refine replaceAll_unique_occurrence _ (by decide) u v ?_
  intro i hi
  exact h2 i (substr_at_lt_length (by decide) hi) hi

theorem spec_C10_witness :
    set_id_value (([] : List Char) ++ svgOpenLit ++ (r" a>b</svg>").toList) 7 =
      PyResult.ok (([] : List Char) ++ injected_svg_tag 7 ++ (r" a>b</svg>").toList) :=
  spec_C10 [] _ 7 (by decide) (by decide)

end SVGTable
